import Mathlib

/-!
Verification of the solana-multisender core against its specification.

The development shallowly embeds the algorithmic parts of the repository:
the amount parser/formatter (`src/js/ui.js`), the per-endpoint verification
and multi-endpoint consensus check, and the adaptive batch submit/retry/split
algorithm with its progress ledger (`src/js/transactions.js`).  External
collaborators (chain client, wallet, endpoint registry) are modelled as
oracles passed in as parameters.  Strings are modelled as `List Char`
where character-level manipulation matters.
-/

namespace SolanaMultisender

/- ### Amount conversion helpers (src/js/ui.js, decimalToAmount / formatAmount) -/

/-- A character is a decimal digit `0`-`9` (the regex class `\d`), stated on
code points: 48 = `'0'`, 57 = `'9'`. -/
def isDigitChar (c : Char) : Bool := 48 ≤ c.toNat && c.toNat ≤ 57

/-- Numeric value of a digit character, as JavaScript's BigInt parsing sees it. -/
def digitToNat (c : Char) : Nat := c.toNat - 48

/-- Value of a most-significant-digit-first digit string, i.e. `BigInt(str)`
for a string of decimal digits. -/
def parseDigits (s : List Char) : Nat :=
  s.foldl (fun a c => 10 * a + digitToNat c) 0

/-- Whitespace as removed by `String.prototype.trim` (ASCII fragment). -/
def isWhitespaceChar (c : Char) : Bool :=
  c = ' ' || c = '\t' || c = '\n' || c = '\r'

/-- Model of `str.trim()`: strip whitespace from both ends. -/
def trimChars (s : List Char) : List Char :=
  ((s.dropWhile isWhitespaceChar).reverse.dropWhile isWhitespaceChar).reverse

/-- Test of the validation regex `^\d+(?:\.\d+)?$` from `decimalToAmount`.
A string matches exactly when it is one or more digits, optionally followed
by a dot and one or more digits; since `isDigitChar '.' = false`, the
all-digit check on the part after the first dot also rejects a second dot,
so this is extensionally the same predicate as the regex. -/
def matchesAmountRegex (t : List Char) : Bool :=
  let w := t.takeWhile (· != '.')
  match t.dropWhile (· != '.') with
  | [] => !w.isEmpty && w.all isDigitChar
  | _ :: f => !w.isEmpty && w.all isDigitChar && !f.isEmpty && f.all isDigitChar

/-- Embedding of `decimalToAmount(str, decimals)` (src/js/ui.js:310).
`none` models the thrown `Invalid amount` error.  On strings accepted by the
regex there is at most one `.`, so `split('.')` destructured to
`[whole, fracRaw = '']` is exactly `takeWhile`/`dropWhile` at the first dot.
The fractional part is right-padded with zeros and truncated to `decimals`
digits, then concatenated onto the whole part and read as an integer. -/
def decimalToAmount (s : List Char) (d : Nat) : Option Nat :=
  let t := trimChars s
  if matchesAmountRegex t then
    let whole := t.takeWhile (· != '.')
    let fracRaw := (t.dropWhile (· != '.')).drop 1
    let frac := (fracRaw ++ List.replicate d '0').take d
    some (parseDigits (whole ++ frac))
  else none

/-- Fuel-driven decimal rendering of a natural number, most significant digit
first; `natToCharsAux fuel n` agrees with JavaScript's `BigInt.toString`
whenever `n ≤ fuel`.  The fuel makes the recursion structural. -/
def natToCharsAux : Nat → Nat → List Char
  | 0, _ => []
  | _, 0 => []
  | fuel + 1, n + 1 =>
    natToCharsAux fuel ((n + 1) / 10) ++ [Nat.digitChar ((n + 1) % 10)]

/-- Decimal rendering of a natural number: `bi.toString()` for a BigInt. -/
def natToChars (n : Nat) : List Char :=
  if n = 0 then ['0'] else natToCharsAux n n

/-- Strip trailing `'0'` characters, as `replace(/0+$/, '')` does. -/
def dropTrailingZeros (l : List Char) : List Char :=
  (l.reverse.dropWhile (· == '0')).reverse

/-- Embedding of `formatAmount(bi, decimals)` (src/js/ui.js:324): render the
integer, left-pad with zeros to `decimals + 1` characters, split off the last
`decimals` characters as the fraction, strip its trailing zeros, and join
with a dot only when the stripped fraction is non-empty. -/
def formatAmount (n : Nat) (d : Nat) : List Char :=
  let s := natToChars n
  if d = 0 then s
  else
    let pad := List.replicate (d + 1 - s.length) '0' ++ s
    let whole := pad.take (pad.length - d)
    let frac := dropTrailingZeros (pad.drop (pad.length - d))
    if frac.isEmpty then whole else whole ++ '.' :: frac

/- ### Per-endpoint verification and consensus (src/js/transactions.js) -/

/-- Endpoint record from the registry (src/js/rpc-config.js). -/
structure Endpoint where
  id : String
  label : String
  url : String
  apiKey : String
  enabled : Bool
deriving DecidableEq

/-- The `value` field of a `getSignatureStatus` response: an optional
execution error (modelled by its stringified payload) and an optional
confirmation-tier string (`null`/missing modelled as `none`). -/
structure SigStatusValue where
  err : Option String
  confirmationStatus : Option String
deriving DecidableEq

/-- Outcome of one `getSignatureStatus` query against one endpoint: either
the call throws (timeout, transport error, malformed response) or it
returns, possibly with no record for the signature. -/
inductive QueryOutcome where
  | throws (msg : String)
  | ok (value : Option SigStatusValue)
deriving DecidableEq

/-- Per-endpoint verification result as built by
`verifyTransactionOnEndpoint`. -/
structure VerificationResult where
  success : Bool
  status : String
  error : Option String
deriving DecidableEq

/-- JavaScript's `s || dflt` for an optional string: `null`, missing and the
empty string are falsy. -/
def jsStringOr (o : Option String) (dflt : String) : String :=
  match o with
  | none => dflt
  | some s => if s = "" then dflt else s

/-- Embedding of `verifyTransactionOnEndpoint` (src/js/transactions.js:81),
as a function of the query outcome delivered by the chain client.  A thrown
query maps to `error` with the exception message; a missing record maps to
`not_found`; a record with an execution error maps to `error`; otherwise the
confirmation tier is matched, with the final fallback
`status: confirmationStatus || 'unknown'`. -/
def verifyTransactionOnEndpoint (q : QueryOutcome) : VerificationResult :=
  match q with
  | .throws msg => ⟨false, "error", some msg⟩
  | .ok none => ⟨false, "not_found", some "Transaction not recognized by this endpoint"⟩
  | .ok (some v) =>
    match v.err with
    | some e => ⟨false, "error", some e⟩
    | none =>
      if v.confirmationStatus = some "finalized" then ⟨true, "finalized", none⟩
      else if v.confirmationStatus = some "confirmed" then ⟨true, "confirmed", none⟩
      else if v.confirmationStatus = some "processed" then
        ⟨false, "processed", some "Only processed, not yet confirmed"⟩
      else ⟨false, jsStringOr v.confirmationStatus "unknown", some "Unexpected confirmation status"⟩

/-- One entry of the consensus result list: the per-endpoint result tagged
with the endpoint label (`{ endpoint: endpoint.label, ...result }`). -/
structure EndpointVerification where
  endpoint : String
  success : Bool
  status : String
  error : Option String
deriving DecidableEq

/-- Return value of `performConsensusVerification`. -/
structure ConsensusOutcome where
  consensusReached : Bool
  results : List EndpointVerification
  confirmedCount : Nat
  totalCount : Nat
deriving DecidableEq

/-- Tag a verification result with its endpoint's label. -/
def labelResult (ep : Endpoint) (r : VerificationResult) : EndpointVerification :=
  ⟨ep.label, r.success, r.status, r.error⟩

/-- Embedding of `performConsensusVerification` (src/js/transactions.js:147).
`endpoints` is the enabled-endpoint list read from the registry and `chain`
delivers each endpoint's query outcome.  An empty list short-circuits to the
all-zero outcome without consulting `chain`; otherwise every endpoint is
queried, `confirmedCount` counts results with `success && status ===
'finalized'`, and `consensusReached` compares it with the threshold. -/
def performConsensusVerification (endpoints : List Endpoint)
    (chain : Endpoint → QueryOutcome) (minConsensusThreshold : Nat) : ConsensusOutcome :=
  if endpoints.length = 0 then
    { consensusReached := false, results := [], confirmedCount := 0, totalCount := 0 }
  else
    let results := endpoints.map fun ep => labelResult ep (verifyTransactionOnEndpoint (chain ep))
    let confirmedCount := (results.filter fun r => r.success && r.status == "finalized").length
    { consensusReached := decide (minConsensusThreshold ≤ confirmedCount)
      results := results
      confirmedCount := confirmedCount
      totalCount := results.length }

/- ### Batch submission machinery (src/js/transactions.js) -/

/-- One parsed recipient line: address (as its string form, the ledger key)
and amount in the token's smallest unit. -/
structure Recipient where
  address : String
  amount : Nat
deriving DecidableEq

/-- The progress ledger (`progressState` in src/js/ui.js:31):
`completedRecipients` is a JavaScript `Set` of address strings, modelled as
a `Finset`; `failedRecipients` is an array of recipients. -/
structure ProgressState where
  allRecipients : List Recipient
  completedRecipients : Finset String
  failedRecipients : List Recipient
deriving DecidableEq

/-- Everything the consensus verifier reads: the enabled-endpoint list, the
chain client's per-endpoint answers, and the configured threshold. -/
structure VerificationEnv where
  endpoints : List Endpoint
  chain : Endpoint → QueryOutcome
  threshold : Nat

/-- Network oracle for batch submission attempts: given the global attempt
index, the batch and whether a pre-simulation was requested, report whether
the whole submit-sign-confirm pipeline of `trySendBatch` succeeded. -/
def SendOracle : Type := Nat → List Recipient → Bool → Bool

/-- Result of one `trySendBatch` call: whether the atomic submission
succeeded, the consensus outcome computed on success, and the progress
ledger afterwards. -/
structure SendAttempt where
  ok : Bool
  consensus : Option ConsensusOutcome
  progressAfter : ProgressState

/-- Embedding of `trySendBatch` (src/js/transactions.js:297).  The
build/simulate/sign/send/confirm pipeline is summarised by the oracle; on a
confirmed submission the multi-endpoint consensus verification runs and is
only reported (a non-reached quorum merely logs a warning), and the function
returns `true` regardless.  `trySendBatch` never writes the progress
ledger, so the state is returned unchanged. -/
def trySendBatch (env : VerificationEnv) (oracle : SendOracle)
    (k : Nat) (batch : List Recipient) (simulateBefore : Bool)
    (st : ProgressState) : SendAttempt :=
  if oracle k batch simulateBefore then
    { ok := true
      consensus := some (performConsensusVerification env.endpoints env.chain env.threshold)
      progressAfter := st }
  else { ok := false, consensus := none, progressAfter := st }

/-- Mark every recipient of a batch completed:
`for (const r of batch) progressState.completedRecipients.add(...)`. -/
def markBatchCompleted (st : ProgressState) (batch : List Recipient) : ProgressState :=
  { st with completedRecipients :=
      batch.foldl (fun c r => insert r.address c) st.completedRecipients }

/-- Progress ledger plus the global attempt counter threaded through a run. -/
structure RunState where
  progress : ProgressState
  nextAttempt : Nat
deriving DecidableEq

/-- Log entry for one submission attempt (index, batch, whether a dry-run
simulation preceded it, its outcome, and the advisory consensus outcome). -/
structure AttemptRecord where
  attemptIndex : Nat
  batch : List Recipient
  simulateBefore : Bool
  ok : Bool
  consensus : Option ConsensusOutcome

/-- Fuel-driven embedding of `processBatchRecursive`
(src/js/transactions.js:357).  First the batch is attempted without
pre-simulation; on failure the same batch is retried once with a prior
simulation; if both fail, a singleton batch pushes its recipient onto the
failed list, and a larger batch is split at the midpoint and both halves are
processed recursively at `depth + 1`, left before right.  The fuel (any
value at least `batch.length`) only makes the recursion structural; the
zero-fuel and empty-batch branches are unreachable from the callers, which
never pass an empty batch (the source would diverge on one). -/
def processBatchRecursiveFuel (env : VerificationEnv) (oracle : SendOracle) :
    Nat → List Recipient → Nat → RunState → RunState × List AttemptRecord
  | 0, _, _, rs => (rs, [])
  | fuel + 1, batch, depth, rs =>
    let st := rs.progress
    let k := rs.nextAttempt
    let t1 := trySendBatch env oracle k batch false st
    if t1.ok then
      (⟨markBatchCompleted t1.progressAfter batch, k + 1⟩,
       [⟨k, batch, false, true, t1.consensus⟩])
    else
      let t2 := trySendBatch env oracle (k + 1) batch true t1.progressAfter
      let tr : List AttemptRecord :=
        [⟨k, batch, false, false, t1.consensus⟩, ⟨k + 1, batch, true, t2.ok, t2.consensus⟩]
      if t2.ok then
        (⟨markBatchCompleted t2.progressAfter batch, k + 2⟩, tr)
      else if batch.length = 1 then
        (⟨{ t2.progressAfter with
              failedRecipients := t2.progressAfter.failedRecipients ++ batch }, k + 2⟩, tr)
      else if batch.length = 0 then
        (⟨t2.progressAfter, k + 2⟩, tr)
      else
        let mid := batch.length / 2
        let r1 := processBatchRecursiveFuel env oracle fuel (batch.take mid) (depth + 1)
          ⟨t2.progressAfter, k + 2⟩
        let r2 := processBatchRecursiveFuel env oracle fuel (batch.drop mid) (depth + 1) r1.1
        (r2.1, tr ++ r1.2 ++ r2.2)

/-- `processBatchRecursive(batch, depth)`: the fuel-free interface. -/
def processBatchRecursive (env : VerificationEnv) (oracle : SendOracle)
    (batch : List Recipient) (depth : Nat) (rs : RunState) :
    RunState × List AttemptRecord :=
  processBatchRecursiveFuel env oracle batch.length batch depth rs

/-- Fuel-driven batch partitioning: `recipients.slice(i, i + batchSize)` for
`i = 0, batchSize, 2*batchSize, ...` (src/js/transactions.js:474). -/
def makeBatchesFuel (bs : Nat) : Nat → List Recipient → List (List Recipient)
  | 0, _ => []
  | _, [] => []
  | f + 1, rs => rs.take bs :: makeBatchesFuel bs f (rs.drop bs)

/-- Partition the recipient list into batches of size `bs`.  The UI
validates `1 ≤ batchSize ≤ 12` before `sendTransactions` runs; on `bs = 0`
the source's loop would never terminate, so that unreachable case returns
no batches. -/
def makeBatches (rs : List Recipient) (bs : Nat) : List (List Recipient) :=
  if bs = 0 then [] else makeBatchesFuel bs rs.length rs

/-- Embedding of the per-batch loop of `sendTransactions`
(src/js/transactions.js:481): each batch is first filtered down to
recipients whose address is not already in the completed set, an empty
remainder is skipped, and otherwise `processBatchRecursive` runs at depth
0 before the next batch starts. -/
def runBatches (env : VerificationEnv) (oracle : SendOracle) :
    List (List Recipient) → RunState → RunState × List AttemptRecord
  | [], rs => (rs, [])
  | b :: rest, rs =>
    let b' := b.filter fun r => decide (r.address ∉ rs.progress.completedRecipients)
    if b'.isEmpty then runBatches env oracle rest rs
    else
      let r1 := processBatchRecursive env oracle b' 0 rs
      let r2 := runBatches env oracle rest r1.1
      (r2.1, r1.2 ++ r2.2)

/-- Ledger state at the start of a send invocation:
`progressState.allRecipients = recipients.slice()` with empty completed and
failed ledgers. -/
def initialProgress (rs : List Recipient) : ProgressState :=
  ⟨rs, ∅, []⟩

/-- The batch-processing core of `sendTransactions`, from the point where
the validated recipient list exists: partition into batches and run them
sequentially, returning the final run state and the attempt log. -/
def sendCore (env : VerificationEnv) (oracle : SendOracle)
    (rs : List Recipient) (bs : Nat) : RunState × List AttemptRecord :=
  runBatches env oracle (makeBatches rs bs) ⟨initialProgress rs, 0⟩

/-- Final progress ledger of a send invocation on a validated list. -/
def finalProgress (env : VerificationEnv) (oracle : SendOracle)
    (rs : List Recipient) (bs : Nat) : ProgressState :=
  (sendCore env oracle rs bs).1.progress

/-- The advisory consensus outcome reported on a successful attempt. -/
def envConsensus (env : VerificationEnv) : ConsensusOutcome :=
  performConsensusVerification env.endpoints env.chain env.threshold

/-- Forget the advisory consensus field of an attempt record, keeping the
attempt index, batch, simulation flag and outcome. -/
def eraseConsensus (a : AttemptRecord) : Nat × List Recipient × Bool × Bool :=
  (a.attemptIndex, a.batch, a.simulateBefore, a.ok)

/-- Minimal verification environment for concrete runs: no endpoints enabled,
threshold 2. -/
def emptyEnv : VerificationEnv := ⟨[], fun _ => .ok none, 2⟩

/-- Network oracle under which every submission attempt succeeds. -/
def alwaysOk : SendOracle := fun _ _ _ => true

/-- Network oracle under which every submission attempt fails. -/
def alwaysFail : SendOracle := fun _ _ _ => false

/-- Network oracle under which the first two attempts (indices 0 and 1) fail
and all later attempts succeed. -/
def failTwice : SendOracle := fun k _ _ => decide (2 ≤ k)

/-- A concrete endpoint for witnesses. -/
def epA : Endpoint := ⟨"e1", "Endpoint One", "https://rpc.example", "", true⟩

/-- A chain client that reports every signature as finalized with no error. -/
def chainFinalized : Endpoint → QueryOutcome :=
  fun _ => .ok (some ⟨none, some "finalized"⟩)

/- ### Recipient-list validation and full send order (src/js/transactions.js:394) -/

/-- Validation failures thrown by the recipient-parsing loop, with the
1-based line number the source reports. -/
inductive ValidationError where
  | badLineFormat (lineNo : Nat)
  | badAddress (lineNo : Nat)
  | badAmount (lineNo : Nat)
  | nonPositiveAmount (lineNo : Nat)
deriving DecidableEq

/-- Parse one recipient line (src/js/transactions.js:445): split on commas
and trim the parts, require exactly two, parse the address (validity
delegated to the external `PublicKey` constructor, modelled by `isAddr`),
convert the amount with `decimalToAmount`, and require it positive. -/
def parseLine (isAddr : List Char → Bool) (decimals : Nat)
    (lineNo : Nat) (raw : List Char) : Except ValidationError Recipient :=
  let parts := (raw.splitOn ',').map trimChars
  match parts with
  | [addrStr, amtStr] =>
    if isAddr addrStr then
      match decimalToAmount amtStr decimals with
      | none => .error (.badAmount lineNo)
      | some amount =>
        if amount = 0 then .error (.nonPositiveAmount lineNo)
        else .ok ⟨String.mk addrStr, amount⟩
    else .error (.badAddress lineNo)
  | _ => .error (.badLineFormat lineNo)

/-- Parse the remaining lines starting at the given 1-based line number,
stopping at the first validation error as the source's `throw` does. -/
def parseRecipientsAux (isAddr : List Char → Bool) (decimals : Nat) :
    Nat → List (List Char) → Except ValidationError (List Recipient)
  | _, [] => .ok []
  | i, l :: rest =>
    match parseLine isAddr decimals i l with
    | .error e => .error e
    | .ok r =>
      match parseRecipientsAux isAddr decimals (i + 1) rest with
      | .error e => .error e
      | .ok rs => .ok (r :: rs)

/-- Embedding of the validation loop of `sendTransactions`
(src/js/transactions.js:443): drop blank lines, then validate every
remaining line in order. -/
def parseRecipients (isAddr : List Char → Bool) (decimals : Nat)
    (lines : List (List Char)) : Except ValidationError (List Recipient) :=
  parseRecipientsAux isAddr decimals 1 (lines.filter fun l => !(trimChars l).isEmpty)

/-- Externally visible events of one send invocation, in order. -/
inductive SendEvent where
  | ataCreateBroadcast
  | validationFailed (e : ValidationError)
  | batchAttempt (attemptIndex : Nat) (batch : List Recipient)
      (simulateBefore : Bool) (ok : Bool)
deriving DecidableEq

/-- Event trace of `sendTransactions` from `ensureSenderAtaExists` onwards
(src/js/transactions.js:440): when the sender's associated token account is
missing, its creation transaction is broadcast first; only then is the
recipient list parsed, and the batch attempts run only after the whole list
validated.  Returns the trace and the final ledger (none when validation
failed). -/
def sendTransactionsFull (env : VerificationEnv) (oracle : SendOracle)
    (ataMissing : Bool) (isAddr : List Char → Bool) (decimals : Nat)
    (lines : List (List Char)) (bs : Nat) :
    List SendEvent × Option ProgressState :=
  let pre : List SendEvent := if ataMissing then [.ataCreateBroadcast] else []
  match parseRecipients isAddr decimals lines with
  | .error e => (pre ++ [.validationFailed e], none)
  | .ok rs =>
    let r := sendCore env oracle rs bs
    (pre ++ r.2.map fun a => .batchAttempt a.attemptIndex a.batch a.simulateBefore a.ok,
     some r.1.progress)

/- ### Lemmas about digit strings -/

theorem parseDigits_nil : parseDigits [] = 0 := rfl

theorem foldl_parse (l : List Char) (a : Nat) :
    l.foldl (fun a c => 10 * a + digitToNat c) a = a * 10 ^ l.length + parseDigits l := by
  induction l generalizing a with
  | nil => simp [parseDigits]
  | cons c t ih =>
    show t.foldl _ (10 * a + digitToNat c) = _
    rw [ih]
    have h0 : parseDigits (c :: t) = t.foldl (fun a c => 10 * a + digitToNat c) (digitToNat c) := by
      simp [parseDigits, List.foldl_cons]
    rw [h0, ih (digitToNat c)]
    simp [List.length_cons, pow_succ]
    ring

theorem parseDigits_cons (c : Char) (t : List Char) :
    parseDigits (c :: t) = digitToNat c * 10 ^ t.length + parseDigits t := by
  have h0 : parseDigits (c :: t) = t.foldl (fun a c => 10 * a + digitToNat c) (digitToNat c) := by
    simp [parseDigits, List.foldl_cons]
  rw [h0, foldl_parse]

theorem parseDigits_append (l₁ l₂ : List Char) :
    parseDigits (l₁ ++ l₂) = parseDigits l₁ * 10 ^ l₂.length + parseDigits l₂ := by
  have : parseDigits (l₁ ++ l₂) = l₂.foldl (fun a c => 10 * a + digitToNat c) (parseDigits l₁) := by
    simp [parseDigits, List.foldl_append]
  rw [this, foldl_parse]

theorem parseDigits_replicate_zero (k : Nat) :
    parseDigits (List.replicate k '0') = 0 := by
  induction k with
  | zero => rfl
  | succ m ih =>
    rw [List.replicate_succ, parseDigits_cons, ih]
    simp [digitToNat]

theorem parseDigits_zero_prefix (k : Nat) (l : List Char) :
    parseDigits (List.replicate k '0' ++ l) = parseDigits l := by
  rw [parseDigits_append, parseDigits_replicate_zero]
  simp

theorem digitToNat_le_nine {c : Char} (h : isDigitChar c = true) : digitToNat c ≤ 9 := by
  simp only [isDigitChar, Bool.and_eq_true, decide_eq_true_eq] at h
  simp only [digitToNat]
  omega

theorem parseDigits_lt (l : List Char) (h : ∀ c ∈ l, isDigitChar c = true) :
    parseDigits l < 10 ^ l.length := by
  induction l with
  | nil => simp [parseDigits_nil]
  | cons c t ih =>
    rw [parseDigits_cons]
    have hc : digitToNat c ≤ 9 := digitToNat_le_nine (h c (List.mem_cons_self c t))
    have ht : parseDigits t < 10 ^ t.length := ih fun x hx => h x (List.mem_cons_of_mem c hx)
    calc digitToNat c * 10 ^ t.length + parseDigits t
        < digitToNat c * 10 ^ t.length + 10 ^ t.length := by omega
      _ = (digitToNat c + 1) * 10 ^ t.length := by ring
      _ ≤ 10 * 10 ^ t.length := by
          have : digitToNat c + 1 ≤ 10 := by omega
          exact Nat.mul_le_mul_right _ this
      _ = 10 ^ (c :: t).length := by rw [List.length_cons, pow_succ]; ring

theorem digitToNat_digitChar {x : Nat} (h : x < 10) :
    digitToNat (Nat.digitChar x) = x := by
  interval_cases x <;> rfl

theorem isDigitChar_digitChar {x : Nat} (h : x < 10) :
    isDigitChar (Nat.digitChar x) = true := by
  interval_cases x <;> rfl

theorem natToCharsAux_parse (fuel : Nat) :
    ∀ n, 0 < n → n ≤ fuel → parseDigits (natToCharsAux fuel n) = n := by
  induction fuel with
  | zero => intro n hn hle; omega
  | succ f ih =>
    intro n hn hle
    obtain ⟨m, rfl⟩ : ∃ m, n = m + 1 := ⟨n - 1, by omega⟩
    rw [natToCharsAux, parseDigits_append]
    have hm : (m + 1) % 10 < 10 := Nat.mod_lt _ (by norm_num)
    have hd : parseDigits [Nat.digitChar ((m + 1) % 10)] = (m + 1) % 10 := by
      rw [show [Nat.digitChar ((m + 1) % 10)] = Nat.digitChar ((m + 1) % 10) :: [] from rfl,
        parseDigits_cons, digitToNat_digitChar hm]
      simp [parseDigits_nil]
    rcases Nat.eq_zero_or_pos ((m + 1) / 10) with hq | hq
    · rw [hq]
      have h10 : m + 1 < 10 := by omega
      rw [show natToCharsAux f 0 = [] by cases f <;> rfl]
      simpa [parseDigits_nil, hd] using (Nat.mod_eq_of_lt h10)
    · have hqle : (m + 1) / 10 ≤ f := by
        have : (m + 1) / 10 < m + 1 := Nat.div_lt_self (by omega) (by norm_num)
        omega
      rw [ih _ hq hqle]
      simp only [List.length_singleton, pow_one, hd]
      omega

theorem parseDigits_natToChars (n : Nat) : parseDigits (natToChars n) = n := by
  by_cases h : n = 0
  · subst h; rfl
  · rw [natToChars, if_neg h]
    exact natToCharsAux_parse n n (Nat.pos_of_ne_zero h) le_rfl

theorem natToCharsAux_all_digits (fuel : Nat) :
    ∀ n, ∀ c ∈ natToCharsAux fuel n, isDigitChar c = true := by
  induction fuel with
  | zero => intro n c hc; simp [natToCharsAux] at hc
  | succ f ih =>
    intro n c hc
    match n with
    | 0 => simp [natToCharsAux] at hc
    | m + 1 =>
      rw [natToCharsAux] at hc
      rcases List.mem_append.mp hc with h | h
      · exact ih _ c h
      · rcases List.mem_singleton.mp h with rfl
        exact isDigitChar_digitChar (Nat.mod_lt _ (by norm_num))

theorem natToChars_all_digits (n : Nat) :
    ∀ c ∈ natToChars n, isDigitChar c = true := by
  intro c hc
  by_cases h : n = 0
  · subst h
    rcases List.mem_singleton.mp hc with rfl
    rfl
  · rw [natToChars, if_neg h] at hc
    exact natToCharsAux_all_digits n n c hc

theorem natToChars_ne_nil (n : Nat) : natToChars n ≠ [] := by
  by_cases h : n = 0
  · subst h; simp [natToChars]
  · rw [natToChars, if_neg h]
    obtain ⟨m, rfl⟩ : ∃ m, n = m + 1 := ⟨n - 1, by omega⟩
    rw [natToCharsAux]
    simp

/- ### Character classes, trimming and splitting at the dot -/

theorem digit_ne_dot {c : Char} (h : isDigitChar c = true) : (c != '.') = true := by
  rcases eq_or_ne c '.' with rfl | hne
  · exact absurd h (by decide)
  · simpa [bne_iff_ne] using hne

theorem digit_not_ws {c : Char} (h : isDigitChar c = true) :
    isWhitespaceChar c = false := by
  by_contra hw
  have hw' : isWhitespaceChar c = true := by
    cases hx : isWhitespaceChar c
    · exact absurd hx hw
    · rfl
  simp only [isWhitespaceChar, Bool.or_eq_true, decide_eq_true_eq] at hw'
  rcases hw' with ((rfl | rfl) | rfl) | rfl <;> exact absurd h (by decide)

theorem dot_not_ws : isWhitespaceChar '.' = false := by decide

theorem dropWhile_eq_self_of_not {p : Char → Bool} {s : List Char}
    (h : ∀ c ∈ s, p c = false) : s.dropWhile p = s := by
  cases s with
  | nil => rfl
  | cons c t => simp [List.dropWhile_cons, h c (List.mem_cons_self c t)]

theorem trimChars_eq_self {s : List Char}
    (h : ∀ c ∈ s, isWhitespaceChar c = false) : trimChars s = s := by
  rw [trimChars, dropWhile_eq_self_of_not h, dropWhile_eq_self_of_not, List.reverse_reverse]
  intro c hc
  exact h c (List.mem_reverse.mp hc)

theorem takeWhile_eq_self_of_all {p : Char → Bool} {s : List Char}
    (h : ∀ c ∈ s, p c = true) : s.takeWhile p = s := by
  induction s with
  | nil => rfl
  | cons c t ih =>
    rw [List.takeWhile_cons, if_pos (h c (List.mem_cons_self c t))]
    rw [ih fun x hx => h x (List.mem_cons_of_mem c hx)]

theorem dropWhile_eq_nil_of_all {p : Char → Bool} {s : List Char}
    (h : ∀ c ∈ s, p c = true) : s.dropWhile p = [] := by
  induction s with
  | nil => rfl
  | cons c t ih =>
    rw [List.dropWhile_cons, if_pos (h c (List.mem_cons_self c t))]
    exact ih fun x hx => h x (List.mem_cons_of_mem c hx)

theorem takeWhile_dot_split {l₁ l₂ : List Char}
    (h : ∀ c ∈ l₁, (c != '.') = true) :
    (l₁ ++ '.' :: l₂).takeWhile (· != '.') = l₁ := by
  rw [List.takeWhile_append_of_pos h, List.takeWhile_cons]
  simp

theorem dropWhile_dot_split {l₁ l₂ : List Char}
    (h : ∀ c ∈ l₁, (c != '.') = true) :
    (l₁ ++ '.' :: l₂).dropWhile (· != '.') = '.' :: l₂ := by
  rw [List.dropWhile_append_of_pos h, List.dropWhile_cons]
  simp

/- ### Trailing-zero stripping -/

theorem dropTrailingZeros_spec (l : List Char) :
    ∃ k, l = dropTrailingZeros l ++ List.replicate k '0' := by
  refine ⟨(l.reverse.takeWhile (· == '0')).length, ?_⟩
  have hz : l.reverse.takeWhile (· == '0') =
      List.replicate (l.reverse.takeWhile (· == '0')).length '0' := by
    apply List.eq_replicate_of_mem
    intro b hb
    have hb' := List.mem_takeWhile_imp hb
    simpa [beq_iff_eq] using hb'
  calc l = l.reverse.reverse := (List.reverse_reverse l).symm
    _ = (l.reverse.takeWhile (· == '0') ++ l.reverse.dropWhile (· == '0')).reverse := by
        rw [List.takeWhile_append_dropWhile]
    _ = (l.reverse.dropWhile (· == '0')).reverse ++ (l.reverse.takeWhile (· == '0')).reverse := by
        rw [List.reverse_append]
    _ = dropTrailingZeros l ++ (List.replicate (l.reverse.takeWhile (· == '0')).length '0').reverse := by
        rw [dropTrailingZeros]; rw [← hz]
    _ = _ := by rw [List.reverse_replicate]

theorem dropTrailingZeros_subset (l : List Char) :
    ∀ c ∈ dropTrailingZeros l, c ∈ l := by
  intro c hc
  rw [dropTrailingZeros] at hc
  have hsub : List.Sublist (List.dropWhile (fun c => c == '0') l.reverse) l.reverse :=
    List.dropWhile_sublist _
  have := hsub.mem (List.mem_reverse.mp hc)
  exact List.mem_reverse.mp this

theorem dropTrailingZeros_restore (l : List Char) (d : Nat) (hlen : l.length = d) :
    (dropTrailingZeros l ++ List.replicate d '0').take d = l := by
  obtain ⟨k, hk⟩ := dropTrailingZeros_spec l
  have hl : (dropTrailingZeros l).length + k = d := by
    have h := congrArg List.length hk
    simp only [List.length_append, List.length_replicate] at h
    omega
  have hkd : k ≤ d := by omega
  calc (dropTrailingZeros l ++ List.replicate d '0').take d
      = (dropTrailingZeros l ++ List.replicate d '0').take ((dropTrailingZeros l).length + k) := by
        rw [hl]
    _ = dropTrailingZeros l ++ (List.replicate d '0').take k := List.take_append k
    _ = dropTrailingZeros l ++ List.replicate (min k d) '0' := by rw [List.take_replicate]
    _ = dropTrailingZeros l ++ List.replicate k '0' := by rw [Nat.min_eq_left hkd]
    _ = l := hk.symm

theorem dropTrailingZeros_nil_case (l : List Char) (h : dropTrailingZeros l = []) :
    l = List.replicate l.length '0' := by
  obtain ⟨k, hk⟩ := dropTrailingZeros_spec l
  rw [h, List.nil_append] at hk
  rw [hk]
  simp

/- ### Evaluation of the amount parser on well-formed strings -/

theorem matchesAmountRegex_no_dot {s : List Char} (hne : s ≠ [])
    (hdig : ∀ c ∈ s, isDigitChar c = true) : matchesAmountRegex s = true := by
  have hdw : s.dropWhile (· != '.') = [] :=
    dropWhile_eq_nil_of_all fun c hc => digit_ne_dot (hdig c hc)
  have htw : s.takeWhile (· != '.') = s :=
    takeWhile_eq_self_of_all fun c hc => digit_ne_dot (hdig c hc)
  simp only [matchesAmountRegex, hdw, htw]
  simp only [List.isEmpty_iff, List.all_eq_true, Bool.and_eq_true, Bool.not_eq_true']
  refine ⟨?_, hdig⟩
  simp [List.isEmpty_iff, hne]

theorem matchesAmountRegex_with_dot {w f : List Char} (hw : w ≠ []) (hf : f ≠ [])
    (hwd : ∀ c ∈ w, isDigitChar c = true) (hfd : ∀ c ∈ f, isDigitChar c = true) :
    matchesAmountRegex (w ++ '.' :: f) = true := by
  have htw := @takeWhile_dot_split w f fun c hc => digit_ne_dot (hwd c hc)
  have hdw := @dropWhile_dot_split w f fun c hc => digit_ne_dot (hwd c hc)
  simp only [matchesAmountRegex, htw, hdw]
  simp only [List.isEmpty_iff, List.all_eq_true, Bool.and_eq_true, Bool.not_eq_true']
  refine ⟨⟨⟨?_, hwd⟩, ?_⟩, hfd⟩ <;> simp [List.isEmpty_iff, hw, hf]

theorem decimalToAmount_eval {s : List Char} (d : Nat)
    (ht : trimChars s = s) (hm : matchesAmountRegex s = true) :
    decimalToAmount s d = some (parseDigits (s.takeWhile (· != '.') ++
      ((s.dropWhile (· != '.')).drop 1 ++ List.replicate d '0').take d)) := by
  simp only [decimalToAmount, ht, hm, if_true]

theorem decimalToAmount_eval_trim (s : List Char) (d : Nat)
    (hm : matchesAmountRegex (trimChars s) = true) :
    decimalToAmount s d = some (parseDigits ((trimChars s).takeWhile (· != '.') ++
      (((trimChars s).dropWhile (· != '.')).drop 1 ++ List.replicate d '0').take d)) := by
  simp only [decimalToAmount, hm, if_true]

theorem matches_frac_digits {t : List Char} (hm : matchesAmountRegex t = true) :
    ∀ c ∈ (t.dropWhile (· != '.')).drop 1, isDigitChar c = true := by
  cases hdw : t.dropWhile (· != '.') with
  | nil => simp
  | cons x f =>
    simp only [matchesAmountRegex, hdw] at hm
    simp only [Bool.and_eq_true, List.all_eq_true] at hm
    intro c hc
    rw [List.drop_succ_cons, List.drop_zero] at hc
    exact hm.2 c hc

theorem parse_back_core {w fd : List Char} (d : Nat)
    (hw : w ≠ []) (hwd : ∀ c ∈ w, isDigitChar c = true)
    (hfdd : ∀ c ∈ fd, isDigitChar c = true) (hlen : fd.length = d) :
    decimalToAmount (if (dropTrailingZeros fd).isEmpty then w
                     else w ++ '.' :: dropTrailingZeros fd) d
      = some (parseDigits (w ++ fd)) := by
  by_cases hfe : (dropTrailingZeros fd).isEmpty = true
  · rw [if_pos hfe]
    have hfd_rep : fd = List.replicate d '0' := by
      have h := dropTrailingZeros_nil_case fd (List.isEmpty_iff.mp hfe)
      rw [hlen] at h
      exact h
    have ht : trimChars w = w := trimChars_eq_self fun c hc => digit_not_ws (hwd c hc)
    have hm := matchesAmountRegex_no_dot hw hwd
    rw [decimalToAmount_eval d ht hm]
    rw [takeWhile_eq_self_of_all fun c hc => digit_ne_dot (hwd c hc),
        dropWhile_eq_nil_of_all fun c hc => digit_ne_dot (hwd c hc)]
    rw [hfd_rep]
    simp [List.take_replicate]
  · rw [if_neg hfe]
    have hfne : dropTrailingZeros fd ≠ [] := by
      intro hnil
      exact hfe (by simp [hnil])
    have hfdig : ∀ c ∈ dropTrailingZeros fd, isDigitChar c = true :=
      fun c hc => hfdd c (dropTrailingZeros_subset fd c hc)
    have ht : trimChars (w ++ '.' :: dropTrailingZeros fd) = w ++ '.' :: dropTrailingZeros fd := by
      apply trimChars_eq_self
      intro c hc
      rcases List.mem_append.mp hc with h | h
      · exact digit_not_ws (hwd c h)
      · rcases List.mem_cons.mp h with rfl | h
        · exact dot_not_ws
        · exact digit_not_ws (hfdig c h)
    have hm := matchesAmountRegex_with_dot hw hfne hwd hfdig
    rw [decimalToAmount_eval d ht hm]
    rw [takeWhile_dot_split fun c hc => digit_ne_dot (hwd c hc),
        dropWhile_dot_split fun c hc => digit_ne_dot (hwd c hc)]
    have hdrop : ('.' :: dropTrailingZeros fd).drop 1 = dropTrailingZeros fd := rfl
    rw [hdrop, dropTrailingZeros_restore fd d hlen]

theorem decimalToAmount_isNone_iff (s : List Char) (d : Nat) :
    decimalToAmount s d = none ↔ matchesAmountRegex (trimChars s) = false := by
  simp only [decimalToAmount]
  by_cases h : matchesAmountRegex (trimChars s) <;> simp [h]

theorem decimalToAmount_floor {s : List Char} {d : Nat}
    (hm : matchesAmountRegex (trimChars s) = true)
    (hlen : d ≤ (((trimChars s).dropWhile (· != '.')).drop 1).length) :
    decimalToAmount s d =
      some (parseDigits ((trimChars s).takeWhile (· != '.') ++
          ((trimChars s).dropWhile (· != '.')).drop 1) /
        10 ^ ((((trimChars s).dropWhile (· != '.')).drop 1).length - d)) := by
  rw [decimalToAmount_eval_trim s d hm]
  set w := (trimChars s).takeWhile (· != '.') with hw
  set f := ((trimChars s).dropWhile (· != '.')).drop 1 with hf
  have htake : (f ++ List.replicate d '0').take d = f.take d :=
    List.take_append_of_le_length hlen
  have hfd : ∀ c ∈ f, isDigitChar c = true := matches_frac_digits hm
  have hsplit : w ++ f = (w ++ f.take d) ++ f.drop d := by
    rw [List.append_assoc, List.take_append_drop]
  have hlendrop : (f.drop d).length = f.length - d := List.length_drop d f
  have hrem : parseDigits (f.drop d) < 10 ^ (f.length - d) := by
    rw [← hlendrop]
    exact parseDigits_lt _ fun c hc => hfd c (List.drop_subset _ _ hc)
  have hparse : parseDigits (w ++ f) =
      parseDigits (w ++ f.take d) * 10 ^ (f.length - d) + parseDigits (f.drop d) := by
    rw [hsplit, parseDigits_append, hlendrop]
  rw [htake, hparse]
  have hpos : 0 < 10 ^ (f.length - d) := Nat.pos_pow_of_pos _ (by norm_num)
  rw [Nat.mul_comm, Nat.mul_add_div hpos, Nat.div_eq_of_lt hrem]
  simp

/-- Claim C2, amended: the round-trip identity `formatAmount(decimalToAmount(s, d), d) = s`
holds exactly for canonical decimal strings, i.e. those in the image of
`formatAmount`: `decimalToAmount` is a left inverse of `formatAmount`, so
every formatted amount parses back to exactly the integer it came from (and
hence formatting after the round trip reproduces the string).  The claim as
stated fails for accepted non-canonical spellings such as `"1.50"`. -/
theorem formatAmount_parse_back (n d : Nat) :
    decimalToAmount (formatAmount n d) d = some n := by
  have hdig := natToChars_all_digits n
  have hne := natToChars_ne_nil n
  by_cases hd : d = 0
  · subst hd
    have hs : formatAmount n 0 = natToChars n := by rw [formatAmount]; simp
    rw [hs]
    have ht : trimChars (natToChars n) = natToChars n :=
      trimChars_eq_self fun c hc => digit_not_ws (hdig c hc)
    have hm : matchesAmountRegex (natToChars n) = true := matchesAmountRegex_no_dot hne hdig
    rw [decimalToAmount_eval 0 ht hm]
    rw [takeWhile_eq_self_of_all fun c hc => digit_ne_dot (hdig c hc)]
    simp [parseDigits_natToChars]
  · have hslen : 1 ≤ (natToChars n).length := List.length_pos.mpr hne
    have hfa : formatAmount n d =
        (if (dropTrailingZeros ((List.replicate (d + 1 - (natToChars n).length) '0' ++
              natToChars n).drop ((List.replicate (d + 1 - (natToChars n).length) '0' ++
              natToChars n).length - d))).isEmpty
         then (List.replicate (d + 1 - (natToChars n).length) '0' ++
              natToChars n).take ((List.replicate (d + 1 - (natToChars n).length) '0' ++
              natToChars n).length - d)
         else (List.replicate (d + 1 - (natToChars n).length) '0' ++
              natToChars n).take ((List.replicate (d + 1 - (natToChars n).length) '0' ++
              natToChars n).length - d) ++ '.' ::
              dropTrailingZeros ((List.replicate (d + 1 - (natToChars n).length) '0' ++
              natToChars n).drop ((List.replicate (d + 1 - (natToChars n).length) '0' ++
              natToChars n).length - d))) := by
      rw [formatAmount]
      simp only [if_neg hd]
    set pad := List.replicate (d + 1 - (natToChars n).length) '0' ++ natToChars n with hpad
    have hpadlen : d + 1 ≤ pad.length := by
      rw [hpad, List.length_append, List.length_replicate]
      omega
    have hpaddig : ∀ c ∈ pad, isDigitChar c = true := by
      intro c hc
      rw [hpad] at hc
      rcases List.mem_append.mp hc with h | h
      · rw [List.eq_of_mem_replicate h]; decide
      · exact hdig c h
    have hpadparse : parseDigits pad = n := by
      rw [hpad, parseDigits_zero_prefix, parseDigits_natToChars]
    have hwne : pad.take (pad.length - d) ≠ [] := by
      have : (pad.take (pad.length - d)).length = pad.length - d := by
        rw [List.length_take]
        omega
      intro hnil
      rw [hnil] at this
      simp at this
      omega
    have hfdlen : (pad.drop (pad.length - d)).length = d := by
      rw [List.length_drop]
      omega
    rw [hfa]
    rw [parse_back_core d hwne
      (fun c hc => hpaddig c (List.take_subset _ _ hc))
      (fun c hc => hpaddig c (List.drop_subset _ _ hc)) hfdlen]
    rw [List.take_append_drop, hpadparse]

/- ### Basic lemmas about the batch machinery -/

theorem trySendBatch_progressAfter (env : VerificationEnv) (oracle : SendOracle)
    (k : Nat) (batch : List Recipient) (sim : Bool) (st : ProgressState) :
    (trySendBatch env oracle k batch sim st).progressAfter = st := by
  rw [trySendBatch]
  split <;> rfl

theorem trySendBatch_ok (env : VerificationEnv) (oracle : SendOracle)
    (k : Nat) (batch : List Recipient) (sim : Bool) (st : ProgressState) :
    (trySendBatch env oracle k batch sim st).ok = oracle k batch sim := by
  rw [trySendBatch]
  cases h : oracle k batch sim <;> simp [h]

theorem mem_foldl_insert (batch : List Recipient) (c0 : Finset String) (a : String) :
    a ∈ batch.foldl (fun c r => insert r.address c) c0 ↔
      a ∈ c0 ∨ a ∈ batch.map Recipient.address := by
  induction batch generalizing c0 with
  | nil => simp
  | cons r t ih =>
    simp only [List.foldl_cons, ih, Finset.mem_insert, List.map_cons, List.mem_cons]
    tauto

theorem mem_markBatchCompleted (st : ProgressState) (batch : List Recipient) (a : String) :
    a ∈ (markBatchCompleted st batch).completedRecipients ↔
      a ∈ st.completedRecipients ∨ a ∈ batch.map Recipient.address :=
  mem_foldl_insert batch st.completedRecipients a

theorem markBatchCompleted_failed (st : ProgressState) (batch : List Recipient) :
    (markBatchCompleted st batch).failedRecipients = st.failedRecipients := rfl

theorem markBatchCompleted_all (st : ProgressState) (batch : List Recipient) :
    (markBatchCompleted st batch).allRecipients = st.allRecipients := rfl

theorem pbrF_first_ok (env : VerificationEnv) (oracle : SendOracle)
    (fuel : Nat) (batch : List Recipient) (depth : Nat) (st : ProgressState) (k : Nat)
    (h : oracle k batch false = true) :
    processBatchRecursiveFuel env oracle (fuel + 1) batch depth ⟨st, k⟩ =
      (⟨markBatchCompleted st batch, k + 1⟩,
       [⟨k, batch, false, true, some (envConsensus env)⟩]) := by
  simp [processBatchRecursiveFuel, trySendBatch, h, envConsensus]

theorem pbrF_retry_ok (env : VerificationEnv) (oracle : SendOracle)
    (fuel : Nat) (batch : List Recipient) (depth : Nat) (st : ProgressState) (k : Nat)
    (h1 : oracle k batch false = false) (h2 : oracle (k + 1) batch true = true) :
    processBatchRecursiveFuel env oracle (fuel + 1) batch depth ⟨st, k⟩ =
      (⟨markBatchCompleted st batch, k + 2⟩,
       [⟨k, batch, false, false, none⟩,
        ⟨k + 1, batch, true, true, some (envConsensus env)⟩]) := by
  simp [processBatchRecursiveFuel, trySendBatch, h1, h2, envConsensus]

theorem pbrF_fail_one (env : VerificationEnv) (oracle : SendOracle)
    (fuel : Nat) (batch : List Recipient) (depth : Nat) (st : ProgressState) (k : Nat)
    (h1 : oracle k batch false = false) (h2 : oracle (k + 1) batch true = false)
    (hlen : batch.length = 1) :
    processBatchRecursiveFuel env oracle (fuel + 1) batch depth ⟨st, k⟩ =
      (⟨{ st with failedRecipients := st.failedRecipients ++ batch }, k + 2⟩,
       [⟨k, batch, false, false, none⟩, ⟨k + 1, batch, true, false, none⟩]) := by
  simp [processBatchRecursiveFuel, trySendBatch, h1, h2, hlen]

theorem pbrF_fail_zero (env : VerificationEnv) (oracle : SendOracle)
    (fuel : Nat) (batch : List Recipient) (depth : Nat) (st : ProgressState) (k : Nat)
    (h1 : oracle k batch false = false) (h2 : oracle (k + 1) batch true = false)
    (hlen : batch.length = 0) :
    processBatchRecursiveFuel env oracle (fuel + 1) batch depth ⟨st, k⟩ =
      (⟨st, k + 2⟩,
       [⟨k, batch, false, false, none⟩, ⟨k + 1, batch, true, false, none⟩]) := by
  simp [processBatchRecursiveFuel, trySendBatch, h1, h2, hlen]

theorem pbrF_split (env : VerificationEnv) (oracle : SendOracle)
    (fuel : Nat) (batch : List Recipient) (depth : Nat) (st : ProgressState) (k : Nat)
    (h1 : oracle k batch false = false) (h2 : oracle (k + 1) batch true = false)
    (hlen1 : batch.length ≠ 1) (hlen0 : batch.length ≠ 0) :
    processBatchRecursiveFuel env oracle (fuel + 1) batch depth ⟨st, k⟩ =
      ((processBatchRecursiveFuel env oracle fuel (batch.drop (batch.length / 2)) (depth + 1)
          (processBatchRecursiveFuel env oracle fuel (batch.take (batch.length / 2)) (depth + 1)
            ⟨st, k + 2⟩).1).1,
       [⟨k, batch, false, false, none⟩, ⟨k + 1, batch, true, false, none⟩] ++
         (processBatchRecursiveFuel env oracle fuel (batch.take (batch.length / 2)) (depth + 1)
           ⟨st, k + 2⟩).2 ++
         (processBatchRecursiveFuel env oracle fuel (batch.drop (batch.length / 2)) (depth + 1)
           (processBatchRecursiveFuel env oracle fuel (batch.take (batch.length / 2)) (depth + 1)
             ⟨st, k + 2⟩).1).2) := by
  simp [processBatchRecursiveFuel, trySendBatch, h1, h2, hlen1, hlen0]

/- ### Frame and monotonicity of the recursive batch processor -/

theorem pbrF_spec (env : VerificationEnv) (oracle : SendOracle) :
    ∀ (fuel : Nat) (batch : List Recipient) (depth : Nat) (rs : RunState),
    (processBatchRecursiveFuel env oracle fuel batch depth rs).1.progress.allRecipients
        = rs.progress.allRecipients ∧
    rs.progress.completedRecipients ⊆
        (processBatchRecursiveFuel env oracle fuel batch depth rs).1.progress.completedRecipients ∧
    (∀ a ∈ (processBatchRecursiveFuel env oracle fuel batch depth rs).1.progress.completedRecipients,
        a ∈ rs.progress.completedRecipients ∨ a ∈ batch.map Recipient.address) ∧
    ∃ F, (processBatchRecursiveFuel env oracle fuel batch depth rs).1.progress.failedRecipients
        = rs.progress.failedRecipients ++ F ∧ ∀ r ∈ F, r ∈ batch := by
  intro fuel
  induction fuel with
  | zero =>
    intro batch depth rs
    exact ⟨rfl, fun a ha => ha, fun a ha => Or.inl ha, [],
      by simp [processBatchRecursiveFuel], by simp⟩
  | succ f ih =>
    intro batch depth rs
    obtain ⟨st, k⟩ := rs
    by_cases h1 : oracle k batch false = true
    · rw [pbrF_first_ok env oracle f batch depth st k h1]
      refine ⟨rfl, ?_, ?_, [], by simp [markBatchCompleted_failed], by simp⟩
      · intro a ha
        exact (mem_markBatchCompleted st batch a).mpr (Or.inl ha)
      · intro a ha
        exact (mem_markBatchCompleted st batch a).mp ha
    · have h1' : oracle k batch false = false := by simpa using h1
      by_cases h2 : oracle (k + 1) batch true = true
      · rw [pbrF_retry_ok env oracle f batch depth st k h1' h2]
        refine ⟨rfl, ?_, ?_, [], by simp [markBatchCompleted_failed], by simp⟩
        · intro a ha
          exact (mem_markBatchCompleted st batch a).mpr (Or.inl ha)
        · intro a ha
          exact (mem_markBatchCompleted st batch a).mp ha
      · have h2' : oracle (k + 1) batch true = false := by simpa using h2
        by_cases hl1 : batch.length = 1
        · rw [pbrF_fail_one env oracle f batch depth st k h1' h2' hl1]
          exact ⟨rfl, fun a ha => ha, fun a ha => Or.inl ha, batch, rfl, fun r hr => hr⟩
        · by_cases hl0 : batch.length = 0
          · rw [pbrF_fail_zero env oracle f batch depth st k h1' h2' hl0]
            exact ⟨rfl, fun a ha => ha, fun a ha => Or.inl ha, [], by simp, by simp⟩
          · rw [pbrF_split env oracle f batch depth st k h1' h2' hl1 hl0]
            obtain ⟨A1, S1, C1, F1, E1, M1⟩ := ih (batch.take (batch.length / 2)) (depth + 1) ⟨st, k + 2⟩
            obtain ⟨A2, S2, C2, F2, E2, M2⟩ := ih (batch.drop (batch.length / 2)) (depth + 1)
              (processBatchRecursiveFuel env oracle f (batch.take (batch.length / 2)) (depth + 1)
                ⟨st, k + 2⟩).1
            have hmapl : ∀ a, a ∈ (batch.take (batch.length / 2)).map Recipient.address →
                a ∈ batch.map Recipient.address := by
              intro a ha
              obtain ⟨r, hr, rfl⟩ := List.mem_map.mp ha
              exact List.mem_map.mpr ⟨r, List.take_subset _ _ hr, rfl⟩
            have hmapr : ∀ a, a ∈ (batch.drop (batch.length / 2)).map Recipient.address →
                a ∈ batch.map Recipient.address := by
              intro a ha
              obtain ⟨r, hr, rfl⟩ := List.mem_map.mp ha
              exact List.mem_map.mpr ⟨r, List.drop_subset _ _ hr, rfl⟩
            refine ⟨by rw [A2, A1], fun a ha => S2 (S1 ha), ?_, F1 ++ F2, ?_, ?_⟩
            · intro a ha
              rcases C2 a ha with h | h
              · rcases C1 a h with h' | h'
                · exact Or.inl h'
                · exact Or.inr (hmapl a h')
              · exact Or.inr (hmapr a h)
            · rw [E2, E1, List.append_assoc]
            · intro r hr
              rcases List.mem_append.mp hr with h | h
              · exact List.take_subset _ _ (M1 r h)
              · exact List.drop_subset _ _ (M2 r h)

theorem pbrF_preserve (env : VerificationEnv) (oracle : SendOracle)
    (fuel : Nat) (batch : List Recipient) (depth : Nat) (rs : RunState) (a : String)
    (ha : a ∉ batch.map Recipient.address) :
    (a ∈ (processBatchRecursiveFuel env oracle fuel batch depth rs).1.progress.completedRecipients
      ↔ a ∈ rs.progress.completedRecipients) ∧
    (a ∈ (processBatchRecursiveFuel env oracle fuel batch depth
            rs).1.progress.failedRecipients.map Recipient.address
      ↔ a ∈ rs.progress.failedRecipients.map Recipient.address) := by
  obtain ⟨_, S, C, F, E, M⟩ := pbrF_spec env oracle fuel batch depth rs
  refine ⟨⟨?_, fun h => S h⟩, ?_⟩
  · intro h
    rcases C a h with h' | h'
    · exact h'
    · exact absurd h' ha
  · rw [E, List.map_append, List.mem_append]
    constructor
    · rintro (h | h)
      · exact h
      · obtain ⟨r, hr, rfl⟩ := List.mem_map.mp h
        exact absurd (List.mem_map.mpr ⟨r, M r hr, rfl⟩) ha
    · exact Or.inl

/- ### Exclusivity: under distinct addresses nothing lands in both ledgers -/

theorem pbrF_exclusive (env : VerificationEnv) (oracle : SendOracle) :
    ∀ (fuel : Nat) (batch : List Recipient) (depth : Nat) (st : ProgressState) (k : Nat),
    (batch.map Recipient.address).Nodup →
    (∀ r ∈ batch, r.address ∉ st.completedRecipients) →
    (∀ r ∈ batch, r.address ∉ st.failedRecipients.map Recipient.address) →
    (st.failedRecipients.map Recipient.address).Nodup →
    ((processBatchRecursiveFuel env oracle fuel batch depth
        ⟨st, k⟩).1.progress.failedRecipients.map Recipient.address).Nodup ∧
    (∀ r ∈ batch,
      ¬(r.address ∈ (processBatchRecursiveFuel env oracle fuel batch depth
            ⟨st, k⟩).1.progress.completedRecipients ∧
        r.address ∈ (processBatchRecursiveFuel env oracle fuel batch depth
            ⟨st, k⟩).1.progress.failedRecipients.map Recipient.address)) := by
  intro fuel
  induction fuel with
  | zero =>
    intro batch depth st k _ hc hf hnd
    refine ⟨hnd, fun r hr hboth => ?_⟩
    exact hf r hr hboth.2
  | succ f ih =>
    intro batch depth st k hnd hc hf hfnd
    by_cases h1 : oracle k batch false = true
    · rw [pbrF_first_ok env oracle f batch depth st k h1]
      refine ⟨hfnd, fun r hr hboth => hf r hr ?_⟩
      simpa [markBatchCompleted_failed] using hboth.2
    · have h1' : oracle k batch false = false := by simpa using h1
      by_cases h2 : oracle (k + 1) batch true = true
      · rw [pbrF_retry_ok env oracle f batch depth st k h1' h2]
        refine ⟨hfnd, fun r hr hboth => hf r hr ?_⟩
        simpa [markBatchCompleted_failed] using hboth.2
      · have h2' : oracle (k + 1) batch true = false := by simpa using h2
        by_cases hl1 : batch.length = 1
        · rw [pbrF_fail_one env oracle f batch depth st k h1' h2' hl1]
          obtain ⟨r0, rfl⟩ := List.length_eq_one.mp hl1
          have hr0f : r0.address ∉ st.failedRecipients.map Recipient.address :=
            hf r0 (List.mem_singleton_self r0)
          constructor
          · simp only [List.map_append, List.map_cons, List.map_nil]
            rw [List.nodup_append]
            refine ⟨hfnd, List.nodup_singleton _, ?_⟩
            intro a ha ha'
            rcases List.mem_singleton.mp ha' with rfl
            exact hr0f ha
          · intro r hr hboth
            rcases List.mem_singleton.mp hr with rfl
            exact hc r (List.mem_singleton_self r) hboth.1
        · by_cases hl0 : batch.length = 0
          · rw [pbrF_fail_zero env oracle f batch depth st k h1' h2' hl0]
            refine ⟨hfnd, fun r hr hboth => hc r hr hboth.1⟩
          · rw [pbrF_split env oracle f batch depth st k h1' h2' hl1 hl0]
            have hsplit : batch.take (batch.length / 2) ++ batch.drop (batch.length / 2) = batch :=
              List.take_append_drop _ batch
            have hmapsplit : batch.map Recipient.address =
                (batch.take (batch.length / 2)).map Recipient.address ++
                (batch.drop (batch.length / 2)).map Recipient.address := by
              rw [← List.map_append, hsplit]
            rw [hmapsplit, List.nodup_append] at hnd
            obtain ⟨hndl, hndr, hdisj⟩ := hnd
            have hcl : ∀ r ∈ batch.take (batch.length / 2), r.address ∉ st.completedRecipients :=
              fun r hr => hc r (List.take_subset _ _ hr)
            have hfl : ∀ r ∈ batch.take (batch.length / 2),
                r.address ∉ st.failedRecipients.map Recipient.address :=
              fun r hr => hf r (List.take_subset _ _ hr)
            obtain ⟨N1, X1⟩ := ih (batch.take (batch.length / 2)) (depth + 1) st (k + 2)
              hndl hcl hfl hfnd
            obtain ⟨_, _, C1, F1, E1, M1⟩ := pbrF_spec env oracle f
              (batch.take (batch.length / 2)) (depth + 1) ⟨st, k + 2⟩
            have hrnotl : ∀ r ∈ batch.drop (batch.length / 2),
                r.address ∉ (batch.take (batch.length / 2)).map Recipient.address := by
              intro r hr hmem
              exact hdisj hmem (List.mem_map.mpr ⟨r, hr, rfl⟩)
            have hcr : ∀ r ∈ batch.drop (batch.length / 2),
                r.address ∉ (processBatchRecursiveFuel env oracle f
                  (batch.take (batch.length / 2)) (depth + 1)
                  ⟨st, k + 2⟩).1.progress.completedRecipients := by
              intro r hr hmem
              rcases C1 r.address hmem with h | h
              · exact hc r (List.drop_subset _ _ hr) h
              · exact hrnotl r hr h
            have hfr : ∀ r ∈ batch.drop (batch.length / 2),
                r.address ∉ (processBatchRecursiveFuel env oracle f
                  (batch.take (batch.length / 2)) (depth + 1)
                  ⟨st, k + 2⟩).1.progress.failedRecipients.map Recipient.address := by
              intro r hr hmem
              rw [E1, List.map_append, List.mem_append] at hmem
              rcases hmem with h | h
              · exact hf r (List.drop_subset _ _ hr) h
              · obtain ⟨r', hr', heq⟩ := List.mem_map.mp h
                exact hrnotl r hr (List.mem_map.mpr ⟨r', M1 r' hr', heq⟩)
            obtain ⟨N2, X2⟩ := ih (batch.drop (batch.length / 2)) (depth + 1)
              (processBatchRecursiveFuel env oracle f (batch.take (batch.length / 2)) (depth + 1)
                ⟨st, k + 2⟩).1.progress
              (processBatchRecursiveFuel env oracle f (batch.take (batch.length / 2)) (depth + 1)
                ⟨st, k + 2⟩).1.nextAttempt
              hndr hcr hfr N1
            refine ⟨N2, ?_⟩
            intro r hr hboth
            have hr' : r ∈ batch.take (batch.length / 2) ∨ r ∈ batch.drop (batch.length / 2) := by
              rw [← List.mem_append, hsplit]
              exact hr
            rcases hr' with hrl | hrr
            · have hnotr : r.address ∉ (batch.drop (batch.length / 2)).map Recipient.address := by
                intro hmem
                exact hdisj (List.mem_map.mpr ⟨r, hrl, rfl⟩) hmem
              obtain ⟨PC, PF⟩ := pbrF_preserve env oracle f (batch.drop (batch.length / 2))
                (depth + 1)
                (processBatchRecursiveFuel env oracle f (batch.take (batch.length / 2)) (depth + 1)
                  ⟨st, k + 2⟩).1 r.address hnotr
              exact X1 r hrl ⟨PC.mp hboth.1, PF.mp hboth.2⟩
            · exact X2 r hrr hboth

theorem pbrF_coverage (env : VerificationEnv) (oracle : SendOracle) :
    ∀ (fuel : Nat) (batch : List Recipient) (depth : Nat) (rs : RunState),
    batch.length ≤ fuel →
    ∀ r ∈ batch,
      r.address ∈ (processBatchRecursiveFuel env oracle fuel batch depth
          rs).1.progress.completedRecipients ∨
      r.address ∈ (processBatchRecursiveFuel env oracle fuel batch depth
          rs).1.progress.failedRecipients.map Recipient.address := by
  intro fuel
  induction fuel with
  | zero =>
    intro batch depth rs hle r hr
    rw [Nat.le_zero, List.length_eq_zero] at hle
    subst hle
    simp at hr
  | succ f ih =>
    intro batch depth rs hle r hr
    obtain ⟨st, k⟩ := rs
    by_cases h1 : oracle k batch false = true
    · rw [pbrF_first_ok env oracle f batch depth st k h1]
      exact Or.inl ((mem_markBatchCompleted st batch r.address).mpr
        (Or.inr (List.mem_map.mpr ⟨r, hr, rfl⟩)))
    · have h1' : oracle k batch false = false := by simpa using h1
      by_cases h2 : oracle (k + 1) batch true = true
      · rw [pbrF_retry_ok env oracle f batch depth st k h1' h2]
        exact Or.inl ((mem_markBatchCompleted st batch r.address).mpr
          (Or.inr (List.mem_map.mpr ⟨r, hr, rfl⟩)))
      · have h2' : oracle (k + 1) batch true = false := by simpa using h2
        by_cases hl1 : batch.length = 1
        · rw [pbrF_fail_one env oracle f batch depth st k h1' h2' hl1]
          refine Or.inr ?_
          rw [List.map_append, List.mem_append]
          exact Or.inr (List.mem_map.mpr ⟨r, hr, rfl⟩)
        · by_cases hl0 : batch.length = 0
          · rw [List.length_eq_zero] at hl0
            subst hl0
            simp at hr
          · rw [pbrF_split env oracle f batch depth st k h1' h2' hl1 hl0]
            have hlen2 : 2 ≤ batch.length := by omega
            have hlenl : (batch.take (batch.length / 2)).length ≤ f := by
              rw [List.length_take]
              omega
            have hlenr : (batch.drop (batch.length / 2)).length ≤ f := by
              rw [List.length_drop]
              omega
            have hsplit : batch.take (batch.length / 2) ++ batch.drop (batch.length / 2) = batch :=
              List.take_append_drop _ batch
            have hr' : r ∈ batch.take (batch.length / 2) ∨ r ∈ batch.drop (batch.length / 2) := by
              rw [← List.mem_append, hsplit]
              exact hr
            obtain ⟨_, S2, _, F2, E2, _⟩ := pbrF_spec env oracle f
              (batch.drop (batch.length / 2)) (depth + 1)
              (processBatchRecursiveFuel env oracle f (batch.take (batch.length / 2)) (depth + 1)
                ⟨st, k + 2⟩).1
            rcases hr' with hrl | hrr
            · rcases ih (batch.take (batch.length / 2)) (depth + 1) ⟨st, k + 2⟩ hlenl r hrl with
                h | h
              · exact Or.inl (S2 h)
              · refine Or.inr ?_
                rw [E2, List.map_append, List.mem_append]
                exact Or.inl h
            · exact ih (batch.drop (batch.length / 2)) (depth + 1)
                (processBatchRecursiveFuel env oracle f (batch.take (batch.length / 2)) (depth + 1)
                  ⟨st, k + 2⟩).1 hlenr r hrr

/- ### The sequential per-batch loop -/

theorem runBatches_cons_all (env : VerificationEnv) (oracle : SendOracle)
    (b : List Recipient) (rest : List (List Recipient)) (st : ProgressState) (k : Nat)
    (hall : ∀ r ∈ b, r.address ∉ st.completedRecipients) (hb : b ≠ []) :
    runBatches env oracle (b :: rest) ⟨st, k⟩ =
      ((runBatches env oracle rest (processBatchRecursive env oracle b 0 ⟨st, k⟩).1).1,
       (processBatchRecursive env oracle b 0 ⟨st, k⟩).2 ++
       (runBatches env oracle rest (processBatchRecursive env oracle b 0 ⟨st, k⟩).1).2) := by
  have hfilter : b.filter (fun r => decide (r.address ∉ st.completedRecipients)) = b :=
    List.filter_eq_self.mpr fun r hr => decide_eq_true (hall r hr)
  simp only [runBatches, hfilter]
  rw [if_neg (by simp [List.isEmpty_iff, hb])]

theorem runBatches_spec (env : VerificationEnv) (oracle : SendOracle) :
    ∀ (batches : List (List Recipient)) (rs : RunState),
    (runBatches env oracle batches rs).1.progress.allRecipients
        = rs.progress.allRecipients ∧
    rs.progress.completedRecipients ⊆
        (runBatches env oracle batches rs).1.progress.completedRecipients ∧
    (∀ a ∈ (runBatches env oracle batches rs).1.progress.completedRecipients,
        a ∈ rs.progress.completedRecipients ∨ a ∈ batches.flatten.map Recipient.address) ∧
    ∃ F, (runBatches env oracle batches rs).1.progress.failedRecipients
        = rs.progress.failedRecipients ++ F ∧ ∀ r ∈ F, r ∈ batches.flatten := by
  intro batches
  induction batches with
  | nil =>
    intro rs
    exact ⟨rfl, fun a ha => ha, fun a ha => Or.inl ha, [], by simp [runBatches], by simp⟩
  | cons b rest ih =>
    intro rs
    obtain ⟨st, k⟩ := rs
    simp only [runBatches]
    by_cases hemp : ((b.filter fun r =>
        decide (r.address ∉ st.completedRecipients)).isEmpty : Prop)
    · rw [if_pos hemp]
      obtain ⟨A, S, C, F, E, M⟩ := ih ⟨st, k⟩
      refine ⟨A, S, ?_, F, E, ?_⟩
      · intro a ha
        rcases C a ha with h | h
        · exact Or.inl h
        · refine Or.inr ?_
          obtain ⟨r, hr, rfl⟩ := List.mem_map.mp h
          exact List.mem_map.mpr ⟨r, by simp [List.mem_flatten] at hr ⊢; tauto, rfl⟩
      · intro r hr
        have := M r hr
        simp [List.mem_flatten] at this ⊢
        tauto
    · rw [if_neg hemp]
      simp only [processBatchRecursive]
      obtain ⟨A1, S1, C1, F1, E1, M1⟩ := pbrF_spec env oracle
        (b.filter fun r => decide (r.address ∉ st.completedRecipients)).length
        (b.filter fun r => decide (r.address ∉ st.completedRecipients)) 0 ⟨st, k⟩
      obtain ⟨A2, S2, C2, F2, E2, M2⟩ := ih
        (processBatchRecursiveFuel env oracle
          (b.filter fun r => decide (r.address ∉ st.completedRecipients)).length
          (b.filter fun r => decide (r.address ∉ st.completedRecipients)) 0 ⟨st, k⟩).1
      have hsub : ∀ r ∈ b.filter fun r => decide (r.address ∉ st.completedRecipients), r ∈ b :=
        fun r hr => List.filter_subset' b hr
      refine ⟨by rw [A2]; exact A1, fun a ha => S2 (S1 ha), ?_, ?_⟩
      · intro a ha
        rcases C2 a ha with h | h
        · rcases C1 a h with h' | h'
          · exact Or.inl h'
          · refine Or.inr ?_
            obtain ⟨r, hr, rfl⟩ := List.mem_map.mp h'
            exact List.mem_map.mpr
              ⟨r, List.mem_flatten.mpr ⟨b, List.mem_cons_self b rest, hsub r hr⟩, rfl⟩
        · refine Or.inr ?_
          obtain ⟨r, hr, rfl⟩ := List.mem_map.mp h
          obtain ⟨bb, hbb, hrb⟩ := List.mem_flatten.mp hr
          exact List.mem_map.mpr
            ⟨r, List.mem_flatten.mpr ⟨bb, List.mem_cons_of_mem b hbb, hrb⟩, rfl⟩
      · refine ⟨F1 ++ F2, ?_, ?_⟩
        · rw [E2, E1, List.append_assoc]
        · intro r hr
          rcases List.mem_append.mp hr with h | h
          · exact List.mem_flatten.mpr ⟨b, List.mem_cons_self b rest, hsub r (M1 r h)⟩
          · obtain ⟨bb, hbb, hrb⟩ := List.mem_flatten.mp (M2 r h)
            exact List.mem_flatten.mpr ⟨bb, List.mem_cons_of_mem b hbb, hrb⟩

theorem runBatches_main (env : VerificationEnv) (oracle : SendOracle) :
    ∀ (batches : List (List Recipient)) (st : ProgressState) (k : Nat),
    (batches.flatten.map Recipient.address).Nodup →
    (∀ r ∈ batches.flatten, r.address ∉ st.completedRecipients) →
    (∀ r ∈ batches.flatten, r.address ∉ st.failedRecipients.map Recipient.address) →
    (st.failedRecipients.map Recipient.address).Nodup →
    ((runBatches env oracle batches
        ⟨st, k⟩).1.progress.failedRecipients.map Recipient.address).Nodup ∧
    (∀ r ∈ batches.flatten,
      r.address ∈ (runBatches env oracle batches ⟨st, k⟩).1.progress.completedRecipients ∨
      r.address ∈ (runBatches env oracle batches
          ⟨st, k⟩).1.progress.failedRecipients.map Recipient.address) ∧
    (∀ r ∈ batches.flatten,
      ¬(r.address ∈ (runBatches env oracle batches ⟨st, k⟩).1.progress.completedRecipients ∧
        r.address ∈ (runBatches env oracle batches
            ⟨st, k⟩).1.progress.failedRecipients.map Recipient.address)) := by
  intro batches
  induction batches with
  | nil =>
    intro st k _ _ _ hfnd
    refine ⟨?_, by simp, by simp⟩
    simpa [runBatches] using hfnd
  | cons b rest ih =>
    intro st k hnd hc hf hfnd
    rw [List.flatten_cons, List.map_append, List.nodup_append] at hnd
    obtain ⟨hndb, hndrest, hdisj⟩ := hnd
    have hcb : ∀ r ∈ b, r.address ∉ st.completedRecipients :=
      fun r hr => hc r (List.mem_flatten.mpr ⟨b, List.mem_cons_self b rest, hr⟩)
    have hcrest : ∀ r ∈ rest.flatten, r.address ∉ st.completedRecipients := by
      intro r hr
      obtain ⟨bb, hbb, hrb⟩ := List.mem_flatten.mp hr
      exact hc r (List.mem_flatten.mpr ⟨bb, List.mem_cons_of_mem b hbb, hrb⟩)
    have hfb : ∀ r ∈ b, r.address ∉ st.failedRecipients.map Recipient.address :=
      fun r hr => hf r (List.mem_flatten.mpr ⟨b, List.mem_cons_self b rest, hr⟩)
    have hfrest : ∀ r ∈ rest.flatten,
        r.address ∉ st.failedRecipients.map Recipient.address := by
      intro r hr
      obtain ⟨bb, hbb, hrb⟩ := List.mem_flatten.mp hr
      exact hf r (List.mem_flatten.mpr ⟨bb, List.mem_cons_of_mem b hbb, hrb⟩)
    by_cases hb : b = []
    · subst hb
      have hskip : runBatches env oracle ([] :: rest) ⟨st, k⟩ =
          runBatches env oracle rest ⟨st, k⟩ := by
        simp [runBatches]
      rw [hskip]
      obtain ⟨N, Cov, X⟩ := ih st k hndrest hcrest hfrest hfnd
      refine ⟨N, ?_, ?_⟩
      · intro r hr
        simp only [List.flatten_cons, List.nil_append] at hr
        exact Cov r hr
      · intro r hr
        simp only [List.flatten_cons, List.nil_append] at hr
        exact X r hr
    · rw [runBatches_cons_all env oracle b rest st k hcb hb]
      simp only [processBatchRecursive]
      obtain ⟨N1, X1⟩ := pbrF_exclusive env oracle b.length b 0 st k hndb hcb hfb hfnd
      have Cov1 := pbrF_coverage env oracle b.length b 0 ⟨st, k⟩ le_rfl
      obtain ⟨A1, S1, C1, F1, E1, M1⟩ := pbrF_spec env oracle b.length b 0 ⟨st, k⟩
      have hdisjrest : ∀ r ∈ rest.flatten, r.address ∉ b.map Recipient.address := by
        intro r hr hmem
        exact hdisj hmem (List.mem_map.mpr ⟨r, hr, rfl⟩)
      have hcrest' : ∀ r ∈ rest.flatten, r.address ∉
          (processBatchRecursiveFuel env oracle b.length b 0
            ⟨st, k⟩).1.progress.completedRecipients := by
        intro r hr hmem
        rcases C1 r.address hmem with h | h
        · exact hcrest r hr h
        · exact hdisjrest r hr h
      have hfrest' : ∀ r ∈ rest.flatten, r.address ∉
          (processBatchRecursiveFuel env oracle b.length b 0
            ⟨st, k⟩).1.progress.failedRecipients.map Recipient.address := by
        intro r hr hmem
        rw [E1, List.map_append, List.mem_append] at hmem
        rcases hmem with h | h
        · exact hfrest r hr h
        · obtain ⟨r', hr', heq⟩ := List.mem_map.mp h
          exact hdisjrest r hr (List.mem_map.mpr ⟨r', M1 r' hr', heq⟩)
      obtain ⟨N2, Cov2, X2⟩ := ih
        (processBatchRecursiveFuel env oracle b.length b 0 ⟨st, k⟩).1.progress
        (processBatchRecursiveFuel env oracle b.length b 0 ⟨st, k⟩).1.nextAttempt
        hndrest hcrest' hfrest' N1
      obtain ⟨A2, S2, C2, F2, E2, M2⟩ := runBatches_spec env oracle rest
        (processBatchRecursiveFuel env oracle b.length b 0 ⟨st, k⟩).1
      refine ⟨N2, ?_, ?_⟩
      · intro r hr
        rw [List.flatten_cons, List.mem_append] at hr
        rcases hr with hrb | hrr
        · rcases Cov1 r hrb with h | h
          · exact Or.inl (S2 h)
          · refine Or.inr ?_
            rw [E2, List.map_append, List.mem_append]
            exact Or.inl h
        · exact Cov2 r hrr
      · intro r hr hboth
        rw [List.flatten_cons, List.mem_append] at hr
        rcases hr with hrb | hrr
        · have hnm : r.address ∉ rest.flatten.map Recipient.address := by
            intro hmem
            exact hdisj (List.mem_map.mpr ⟨r, hrb, rfl⟩) hmem
          have hcomp : r.address ∈ (processBatchRecursiveFuel env oracle b.length b 0
              ⟨st, k⟩).1.progress.completedRecipients := by
            rcases C2 r.address hboth.1 with h | h
            · exact h
            · exact absurd h hnm
          have hfail : r.address ∈ (processBatchRecursiveFuel env oracle b.length b 0
              ⟨st, k⟩).1.progress.failedRecipients.map Recipient.address := by
            have h := hboth.2
            rw [E2, List.map_append, List.mem_append] at h
            rcases h with h | h
            · exact h
            · obtain ⟨r', hr', heq⟩ := List.mem_map.mp h
              obtain ⟨bb, hbb, hrb'⟩ := List.mem_flatten.mp (M2 r' hr')
              exact absurd (List.mem_map.mpr
                ⟨r', List.mem_flatten.mpr ⟨bb, hbb, hrb'⟩, heq⟩) hnm
          exact X1 r hrb ⟨hcomp, hfail⟩
        · exact X2 r hrr hboth

/- ### Batch partitioning -/

theorem makeBatchesFuel_flatten (bs : Nat) (hbs : 1 ≤ bs) :
    ∀ (f : Nat) (rs : List Recipient), rs.length ≤ f →
    (makeBatchesFuel bs f rs).flatten = rs := by
  intro f
  induction f with
  | zero =>
    intro rs h
    rw [Nat.le_zero, List.length_eq_zero] at h
    subst h
    rfl
  | succ g ih =>
    intro rs h
    cases rs with
    | nil => rfl
    | cons r t =>
      show (((r :: t).take bs) :: makeBatchesFuel bs g ((r :: t).drop bs)).flatten = r :: t
      rw [List.flatten_cons, ih ((r :: t).drop bs) (by rw [List.length_drop]; simp at h ⊢; omega),
        List.take_append_drop]

theorem makeBatches_flatten (rs : List Recipient) (bs : Nat) (hbs : 1 ≤ bs) :
    (makeBatches rs bs).flatten = rs := by
  rw [makeBatches, if_neg (by omega)]
  exact makeBatchesFuel_flatten bs hbs rs.length rs le_rfl

theorem makeBatches_flatten_subset (rs : List Recipient) (bs : Nat) :
    ∀ r ∈ (makeBatches rs bs).flatten, r ∈ rs := by
  by_cases hbs : bs = 0
  · subst hbs
    simp [makeBatches]
  · rw [makeBatches_flatten rs bs (by omega)]
    exact fun r hr => hr

/- ### The ledger does not depend on the consensus verifier -/

theorem pbrF_env_irrel (env₁ env₂ : VerificationEnv) (oracle : SendOracle) :
    ∀ (fuel : Nat) (batch : List Recipient) (depth : Nat) (rs : RunState),
    (processBatchRecursiveFuel env₁ oracle fuel batch depth rs).1 =
      (processBatchRecursiveFuel env₂ oracle fuel batch depth rs).1 ∧
    (processBatchRecursiveFuel env₁ oracle fuel batch depth rs).2.map eraseConsensus =
      (processBatchRecursiveFuel env₂ oracle fuel batch depth rs).2.map eraseConsensus := by
  intro fuel
  induction fuel with
  | zero => intro batch depth rs; exact ⟨rfl, rfl⟩
  | succ f ih =>
    intro batch depth rs
    obtain ⟨st, k⟩ := rs
    by_cases h1 : oracle k batch false = true
    · rw [pbrF_first_ok env₁ oracle f batch depth st k h1,
        pbrF_first_ok env₂ oracle f batch depth st k h1]
      exact ⟨rfl, rfl⟩
    · have h1' : oracle k batch false = false := by simpa using h1
      by_cases h2 : oracle (k + 1) batch true = true
      · rw [pbrF_retry_ok env₁ oracle f batch depth st k h1' h2,
          pbrF_retry_ok env₂ oracle f batch depth st k h1' h2]
        exact ⟨rfl, rfl⟩
      · have h2' : oracle (k + 1) batch true = false := by simpa using h2
        by_cases hl1 : batch.length = 1
        · rw [pbrF_fail_one env₁ oracle f batch depth st k h1' h2' hl1,
            pbrF_fail_one env₂ oracle f batch depth st k h1' h2' hl1]
          exact ⟨rfl, rfl⟩
        · by_cases hl0 : batch.length = 0
          · rw [pbrF_fail_zero env₁ oracle f batch depth st k h1' h2' hl0,
              pbrF_fail_zero env₂ oracle f batch depth st k h1' h2' hl0]
            exact ⟨rfl, rfl⟩
          · rw [pbrF_split env₁ oracle f batch depth st k h1' h2' hl1 hl0,
              pbrF_split env₂ oracle f batch depth st k h1' h2' hl1 hl0]
            obtain ⟨hs1, ht1⟩ := ih (batch.take (batch.length / 2)) (depth + 1) ⟨st, k + 2⟩
            rw [← hs1]
            obtain ⟨hs2, ht2⟩ := ih (batch.drop (batch.length / 2)) (depth + 1)
              (processBatchRecursiveFuel env₁ oracle f (batch.take (batch.length / 2)) (depth + 1)
                ⟨st, k + 2⟩).1
            refine ⟨hs2, ?_⟩
            simp only [List.map_append, ht1, ht2]

theorem runBatches_env_irrel (env₁ env₂ : VerificationEnv) (oracle : SendOracle) :
    ∀ (batches : List (List Recipient)) (rs : RunState),
    (runBatches env₁ oracle batches rs).1 = (runBatches env₂ oracle batches rs).1 ∧
    (runBatches env₁ oracle batches rs).2.map eraseConsensus =
      (runBatches env₂ oracle batches rs).2.map eraseConsensus := by
  intro batches
  induction batches with
  | nil => intro rs; exact ⟨rfl, rfl⟩
  | cons b rest ih =>
    intro rs
    simp only [runBatches, processBatchRecursive]
    by_cases hemp : ((b.filter fun r =>
        decide (r.address ∉ rs.progress.completedRecipients)).isEmpty : Prop)
    · rw [if_pos hemp, if_pos hemp]
      exact ih rs
    · rw [if_neg hemp, if_neg hemp]
      obtain ⟨hs1, ht1⟩ := pbrF_env_irrel env₁ env₂ oracle
        (b.filter fun r => decide (r.address ∉ rs.progress.completedRecipients)).length
        (b.filter fun r => decide (r.address ∉ rs.progress.completedRecipients)) 0 rs
      rw [← hs1]
      obtain ⟨hs2, ht2⟩ := ih
        (processBatchRecursiveFuel env₁ oracle
          (b.filter fun r => decide (r.address ∉ rs.progress.completedRecipients)).length
          (b.filter fun r => decide (r.address ∉ rs.progress.completedRecipients)) 0 rs).1
      refine ⟨hs2, ?_⟩
      simp only [List.map_append, ht1, ht2]

/- ### Fuel irrelevance for the recursive batch processor -/

theorem pbrF_fuel_irrel (env : VerificationEnv) (oracle : SendOracle) :
    ∀ (f₁ f₂ : Nat) (batch : List Recipient) (depth : Nat) (rs : RunState),
    1 ≤ batch.length → batch.length ≤ f₁ → batch.length ≤ f₂ →
    processBatchRecursiveFuel env oracle f₁ batch depth rs =
      processBatchRecursiveFuel env oracle f₂ batch depth rs := by
  intro f₁
  induction f₁ with
  | zero => intro f₂ batch depth rs hpos hle₁ hle₂; omega
  | succ g ih =>
    intro f₂ batch depth rs hpos hle₁ hle₂
    obtain ⟨g₂, rfl⟩ : ∃ g₂, f₂ = g₂ + 1 := ⟨f₂ - 1, by omega⟩
    obtain ⟨st, k⟩ := rs
    by_cases h1 : oracle k batch false = true
    · rw [pbrF_first_ok env oracle g batch depth st k h1,
        pbrF_first_ok env oracle g₂ batch depth st k h1]
    · have h1' : oracle k batch false = false := by simpa using h1
      by_cases h2 : oracle (k + 1) batch true = true
      · rw [pbrF_retry_ok env oracle g batch depth st k h1' h2,
          pbrF_retry_ok env oracle g₂ batch depth st k h1' h2]
      · have h2' : oracle (k + 1) batch true = false := by simpa using h2
        by_cases hl1 : batch.length = 1
        · rw [pbrF_fail_one env oracle g batch depth st k h1' h2' hl1,
            pbrF_fail_one env oracle g₂ batch depth st k h1' h2' hl1]
        · have hl0 : batch.length ≠ 0 := by omega
          rw [pbrF_split env oracle g batch depth st k h1' h2' hl1 hl0,
            pbrF_split env oracle g₂ batch depth st k h1' h2' hl1 hl0]
          have hlenl : (batch.take (batch.length / 2)).length = batch.length / 2 := by
            rw [List.length_take]
            omega
          have hlenr : (batch.drop (batch.length / 2)).length =
              batch.length - batch.length / 2 := by
            rw [List.length_drop]
          have e1 : processBatchRecursiveFuel env oracle g (batch.take (batch.length / 2))
              (depth + 1) ⟨st, k + 2⟩ =
            processBatchRecursiveFuel env oracle g₂ (batch.take (batch.length / 2))
              (depth + 1) ⟨st, k + 2⟩ := by
            apply ih
            · omega
            · omega
            · omega
          rw [e1]
          have e2 : processBatchRecursiveFuel env oracle g (batch.drop (batch.length / 2))
              (depth + 1)
              (processBatchRecursiveFuel env oracle g₂ (batch.take (batch.length / 2))
                (depth + 1) ⟨st, k + 2⟩).1 =
            processBatchRecursiveFuel env oracle g₂ (batch.drop (batch.length / 2))
              (depth + 1)
              (processBatchRecursiveFuel env oracle g₂ (batch.take (batch.length / 2))
                (depth + 1) ⟨st, k + 2⟩).1 := by
            apply ih
            · omega
            · omega
            · omega
          rw [e2]

/- ### Claim theorems, counterexamples and witnesses -/

/-- Claim C2, counterexample: `"1.50"` is a valid non-negative decimal string
with at most 6 fractional digits, `decimalToAmount` accepts it, but
formatting the result back yields `"1.5"`, not `"1.50"` — the round trip as
claimed fails on it. -/
theorem roundtrip_fails_on_trailing_zero :
    decimalToAmount ("1.50".toList) 6 = some 1500000 ∧
    formatAmount 1500000 6 = "1.5".toList ∧
    ("1.5".toList : List Char) ≠ "1.50".toList := by
  decide

/-- Claim C10: `decimalToAmount` silently truncates fractional digits beyond
`decimals`, rounding toward zero: whenever the trimmed input matches the
validation regex and its fractional part has at least `d` digits, the result
is the floor of the exact scaled value (the full digit string divided by
`10 ^ excess`); and the parser rejects (throws) exactly the strings that
fail the regex `^\d+(?:\.\d+)?$`. -/
theorem decimalToAmount_truncates_excess (s : List Char) (d : Nat) :
    (decimalToAmount s d = none ↔ matchesAmountRegex (trimChars s) = false) ∧
    (matchesAmountRegex (trimChars s) = true →
      d ≤ (((trimChars s).dropWhile (· != '.')).drop 1).length →
      decimalToAmount s d =
        some (parseDigits ((trimChars s).takeWhile (· != '.') ++
            ((trimChars s).dropWhile (· != '.')).drop 1) /
          10 ^ ((((trimChars s).dropWhile (· != '.')).drop 1).length - d))) :=
  ⟨decimalToAmount_isNone_iff s d, fun hm hlen => decimalToAmount_floor hm hlen⟩

/-- Claim C10, witness: `decimalToAmount("0.0000001", 6)` truncates the
seventh fractional digit and returns `0`. -/
theorem decimalToAmount_truncates_excess_witness :
    decimalToAmount ("0.0000001".toList) 6 = some 0 :=
  ((decimalToAmount_truncates_excess ("0.0000001".toList) 6).2
    (by decide) (by decide)).trans (by decide)

/-- Claim C7, counterexample: a record with no execution error but the
unrecognized non-empty confirmation tier `"superfinal"` is mapped to a
failure whose `status` is the tier string itself — not `'unknown'`, and not
one of the six documented statuses. -/
theorem unrecognized_tier_passes_through :
    (verifyTransactionOnEndpoint (.ok (some ⟨none, some "superfinal"⟩))).status = "superfinal" ∧
    "superfinal" ∉ (["finalized", "confirmed", "processed", "not_found", "error", "unknown"] :
      List String) := by
  decide

/-- Claim C7, amended: every per-endpoint result has a status among the six
documented values, except that a record with no error and a non-empty
unrecognized confirmation tier is mapped to a failure carrying that tier
string verbatim (the `'unknown'` fallback fires only for a missing or empty
tier); and a thrown query is always mapped to a failure with status
`'error'` carrying the exception message — never propagated. -/
theorem verify_status_domain (q : QueryOutcome) :
    ((verifyTransactionOnEndpoint q).status ∈
        (["finalized", "confirmed", "processed", "not_found", "error", "unknown"] : List String) ∨
      ((verifyTransactionOnEndpoint q).success = false ∧
        ∃ s, s ≠ "" ∧ q = .ok (some ⟨none, some s⟩) ∧
          s ∉ (["finalized", "confirmed", "processed"] : List String) ∧
          (verifyTransactionOnEndpoint q).status = s)) ∧
    (∀ msg, q = .throws msg →
      verifyTransactionOnEndpoint q = ⟨false, "error", some msg⟩) := by
  constructor
  · cases q with
    | throws msg => left; simp [verifyTransactionOnEndpoint]
    | ok v =>
      cases v with
      | none => left; simp [verifyTransactionOnEndpoint]
      | some sv =>
        rcases sv with ⟨err, cs⟩
        cases err with
        | some e => left; simp [verifyTransactionOnEndpoint]
        | none =>
          by_cases hf : cs = some "finalized"
          · left; simp [verifyTransactionOnEndpoint, hf]
          · by_cases hc : cs = some "confirmed"
            · left; simp [verifyTransactionOnEndpoint, hf, hc]
            · by_cases hp : cs = some "processed"
              · left; simp [verifyTransactionOnEndpoint, hf, hc, hp]
              · cases cs with
                | none => left; simp [verifyTransactionOnEndpoint, jsStringOr]
                | some s =>
                  by_cases hs : s = ""
                  · left
                    simp [verifyTransactionOnEndpoint, hf, hc, hp, jsStringOr, hs]
                  · right
                    refine ⟨by simp [verifyTransactionOnEndpoint, hf, hc, hp], s, hs, rfl, ?_, ?_⟩
                    · intro hmem
                      simp only [List.mem_cons, List.not_mem_nil, or_false] at hmem
                      rcases hmem with h | h | h
                      · exact hf (by rw [h])
                      · exact hc (by rw [h])
                      · exact hp (by rw [h])
                    · simp [verifyTransactionOnEndpoint, hf, hc, hp, jsStringOr, hs]
  · intro msg hq
    subst hq
    rfl

/-- Claim C7, witness: a thrown query with message `"boom"` maps to the
`error` status carrying that message. -/
theorem verify_status_domain_witness :
    verifyTransactionOnEndpoint (.throws "boom") = ⟨false, "error", some "boom"⟩ :=
  (verify_status_domain (.throws "boom")).2 "boom" rfl

/-- Claim C8: with an empty enabled-endpoint list, consensus verification
returns immediately with `consensusReached = false`, no results,
`confirmedCount = 0` and `totalCount = 0`, for every chain client and every
threshold — in particular no endpoint is ever queried, since the outcome
does not depend on the chain client at all. -/
theorem verify_no_endpoints_short_circuit (chain : Endpoint → QueryOutcome) (thr : Nat) :
    performConsensusVerification [] chain thr =
      { consensusReached := false, results := [], confirmedCount := 0, totalCount := 0 } := rfl

theorem verify_success_of_finalized (q : QueryOutcome)
    (h : (verifyTransactionOnEndpoint q).status = "finalized") :
    (verifyTransactionOnEndpoint q).success = true := by
  cases q with
  | throws msg => simp [verifyTransactionOnEndpoint] at h
  | ok v =>
    cases v with
    | none => simp [verifyTransactionOnEndpoint] at h
    | some sv =>
      rcases sv with ⟨err, cs⟩
      cases err with
      | some e => simp [verifyTransactionOnEndpoint] at h
      | none =>
        by_cases hf : cs = some "finalized"
        · simp [verifyTransactionOnEndpoint, hf]
        · by_cases hc : cs = some "confirmed"
          · simp [verifyTransactionOnEndpoint, hf, hc] at h
          · by_cases hp : cs = some "processed"
            · simp [verifyTransactionOnEndpoint, hf, hc, hp] at h
            · exfalso
              cases cs with
              | none => simp [verifyTransactionOnEndpoint, hf, hc, hp, jsStringOr] at h
              | some s =>
                by_cases hs : s = ""
                · simp [verifyTransactionOnEndpoint, hf, hc, hp, jsStringOr, hs] at h
                · have : s = "finalized" := by
                    simpa [verifyTransactionOnEndpoint, hf, hc, hp, jsStringOr, hs] using h
                  exact hf (by rw [this])

theorem finalized_count_pred (q : QueryOutcome) :
    ((verifyTransactionOnEndpoint q).success &&
      ((verifyTransactionOnEndpoint q).status == "finalized")) =
    ((verifyTransactionOnEndpoint q).status == "finalized") := by
  cases hst : ((verifyTransactionOnEndpoint q).status == "finalized")
  · simp
  · simp [verify_success_of_finalized q (by simpa using hst)]

/-- Claim C4: for every enabled-endpoint list, every chain client and every
configured threshold (the configuration only allows thresholds `≥ 1`), the
consensus outcome counts exactly the endpoints whose mapped status is
`finalized` (a `confirmed`-tier result never counts), and
`consensusReached` holds if and only if that count reaches the threshold. -/
theorem consensus_quorum_math (endpoints : List Endpoint)
    (chain : Endpoint → QueryOutcome) (thr : Nat) (hthr : 1 ≤ thr) :
    (performConsensusVerification endpoints chain thr).confirmedCount =
      (endpoints.filter fun ep =>
        (verifyTransactionOnEndpoint (chain ep)).status == "finalized").length ∧
    ((performConsensusVerification endpoints chain thr).consensusReached = true ↔
      thr ≤ (performConsensusVerification endpoints chain thr).confirmedCount) := by
  by_cases he : endpoints.length = 0
  · rw [List.length_eq_zero] at he
    subst he
    have hE : performConsensusVerification [] chain thr =
        { consensusReached := false, results := [], confirmedCount := 0, totalCount := 0 } := rfl
    rw [hE]
    refine ⟨rfl, ?_⟩
    constructor
    · intro h
      exact absurd h (by decide)
    · intro h
      exact absurd (le_trans hthr h) (by decide)
  · have hperf : performConsensusVerification endpoints chain thr =
        { consensusReached := decide (thr ≤ ((endpoints.map fun ep =>
            labelResult ep (verifyTransactionOnEndpoint (chain ep))).filter fun r =>
              r.success && r.status == "finalized").length)
          results := endpoints.map fun ep => labelResult ep (verifyTransactionOnEndpoint (chain ep))
          confirmedCount := ((endpoints.map fun ep =>
            labelResult ep (verifyTransactionOnEndpoint (chain ep))).filter fun r =>
              r.success && r.status == "finalized").length
          totalCount := (endpoints.map fun ep =>
            labelResult ep (verifyTransactionOnEndpoint (chain ep))).length } := by
      rw [performConsensusVerification, if_neg he]
    have hcount : ((endpoints.map fun ep =>
        labelResult ep (verifyTransactionOnEndpoint (chain ep))).filter fun r =>
          r.success && r.status == "finalized").length =
        (endpoints.filter fun ep =>
          (verifyTransactionOnEndpoint (chain ep)).status == "finalized").length := by
      rw [List.filter_map]
      rw [List.length_map]
      congr 1
      apply List.filter_congr
      intro ep _
      exact finalized_count_pred (chain ep)
    rw [hperf]
    refine ⟨hcount, ?_⟩
    simp only [decide_eq_true_eq, hcount]

/-- Claim C4, witness: one endpoint reporting `finalized` against threshold
1 gives `confirmedCount = 1` and a reached consensus. -/
theorem consensus_quorum_math_witness :
    (performConsensusVerification [epA] chainFinalized 1).confirmedCount = 1 ∧
    (performConsensusVerification [epA] chainFinalized 1).consensusReached = true := by
  have h := consensus_quorum_math [epA] chainFinalized 1 (by decide)
  exact ⟨by rw [h.1]; rfl, h.2.mpr (by rw [h.1]; decide)⟩

/-- Claim C1, counterexample: the recipient list may repeat an address, and
then one address can end in both ledgers.  With the same address `"A"` on
two lines, batch size 1, and a network on which the first batch's two
attempts fail while later attempts succeed, the first occurrence is recorded
failed; the second batch is not filtered (the address is not completed),
succeeds, and records the same address completed — it is counted in both
the completed set and the failed list. -/
theorem duplicate_address_in_both_ledgers :
    "A" ∈ (finalProgress emptyEnv failTwice [⟨"A", 1⟩, ⟨"A", 1⟩] 1).completedRecipients ∧
    "A" ∈ (finalProgress emptyEnv failTwice
        [⟨"A", 1⟩, ⟨"A", 1⟩] 1).failedRecipients.map Recipient.address := by
  decide

/-- Claim C1, amended: for every recipient list with pairwise-distinct
addresses (the data model assumes addresses unique within one send) and
every valid batch size, after all batches complete every recipient's address
is in exactly one of the completed set and the failed list, every failed
entry is one of the submitted recipients, and no address appears twice in
the failed list — no recipient is left pending or dropped. -/
theorem send_terminal_partition (env : VerificationEnv) (oracle : SendOracle)
    (rs : List Recipient) (bs : Nat) (hbs : 1 ≤ bs)
    (hnd : (rs.map Recipient.address).Nodup) :
    (∀ r ∈ rs,
      r.address ∈ (finalProgress env oracle rs bs).completedRecipients ∨
      r.address ∈ (finalProgress env oracle rs bs).failedRecipients.map Recipient.address) ∧
    (∀ r ∈ rs,
      ¬(r.address ∈ (finalProgress env oracle rs bs).completedRecipients ∧
        r.address ∈ (finalProgress env oracle rs bs).failedRecipients.map Recipient.address)) ∧
    (∀ r ∈ (finalProgress env oracle rs bs).failedRecipients, r ∈ rs) ∧
    ((finalProgress env oracle rs bs).failedRecipients.map Recipient.address).Nodup := by
  have hfl := makeBatches_flatten rs bs hbs
  have hdef : finalProgress env oracle rs bs =
      (runBatches env oracle (makeBatches rs bs) ⟨initialProgress rs, 0⟩).1.progress := rfl
  obtain ⟨N, Cov, X⟩ := runBatches_main env oracle (makeBatches rs bs) (initialProgress rs) 0
    (by rw [hfl]; exact hnd)
    (fun r _ => Finset.not_mem_empty _)
    (fun r _ => by simp [initialProgress])
    (by simp [initialProgress])
  obtain ⟨_, _, _, F, E, M⟩ := runBatches_spec env oracle (makeBatches rs bs)
    ⟨initialProgress rs, 0⟩
  rw [hdef]
  refine ⟨?_, ?_, ?_, N⟩
  · intro r hr
    exact Cov r (by rw [hfl]; exact hr)
  · intro r hr
    exact X r (by rw [hfl]; exact hr)
  · intro r hr
    rw [E] at hr
    rcases List.mem_append.mp hr with h | h
    · simp [initialProgress] at h
    · have hmem := M r h
      rw [hfl] at hmem
      exact hmem

/-- Claim C1, witness: three distinct recipients, batch size 2, first two
attempts failing — every address ends in a terminal ledger. -/
theorem send_terminal_partition_witness :
    ("A" ∈ (finalProgress emptyEnv failTwice
        [⟨"A", 1⟩, ⟨"B", 2⟩, ⟨"C", 3⟩] 2).completedRecipients ∨
      "A" ∈ (finalProgress emptyEnv failTwice
        [⟨"A", 1⟩, ⟨"B", 2⟩, ⟨"C", 3⟩] 2).failedRecipients.map Recipient.address) :=
  (send_terminal_partition emptyEnv failTwice [⟨"A", 1⟩, ⟨"B", 2⟩, ⟨"C", 3⟩] 2
    (by decide) (by decide)).1 ⟨"A", 1⟩ (by decide)

/-- Claim C3, counterexample: two identical recipient lines in one batch,
every attempt succeeding: both occurrences are submitted in the one batch,
but the completed ledger is a set keyed by address, so the completed tally
is 1 for a 2-line list — occurrences are not counted separately, refuting
the claim that duplicates are independent line items in the tallies. -/
theorem duplicate_lines_not_counted_separately :
    (finalProgress emptyEnv alwaysOk [⟨"A", 1⟩, ⟨"A", 1⟩] 2).completedRecipients.card = 1 ∧
    ([(⟨"A", 1⟩ : Recipient), ⟨"A", 1⟩] : List Recipient).length = 2 := by
  decide

/-- Claim C3, amended: duplicate lines are merged by address, not treated as
independent line items: the completed ledger is a set of address strings
drawn from the submitted list, so its tally counts each distinct address at
most once and can never exceed the number of distinct addresses (in
particular it cannot count two occurrences of one address separately). -/
theorem completed_tally_counts_distinct_addresses (env : VerificationEnv)
    (oracle : SendOracle) (rs : List Recipient) (bs : Nat) :
    (finalProgress env oracle rs bs).completedRecipients ⊆
      (rs.map Recipient.address).toFinset ∧
    (finalProgress env oracle rs bs).completedRecipients.card ≤
      (rs.map Recipient.address).toFinset.card := by
  have hsub : (finalProgress env oracle rs bs).completedRecipients ⊆
      (rs.map Recipient.address).toFinset := by
    intro a ha
    obtain ⟨_, _, C, _⟩ := runBatches_spec env oracle (makeBatches rs bs)
      ⟨initialProgress rs, 0⟩
    rcases C a ha with h | h
    · exact absurd h (Finset.not_mem_empty a)
    · obtain ⟨r, hr, rfl⟩ := List.mem_map.mp h
      exact List.mem_toFinset.mpr
        (List.mem_map.mpr ⟨r, makeBatches_flatten_subset rs bs r hr, rfl⟩)
  exact ⟨hsub, Finset.card_le_card hsub⟩

/-- Claim C5: `processBatchRecursive` first attempts the whole batch without
pre-simulation; on failure it retries the same batch exactly once with a
prior simulation; if both fail, a singleton batch pushes its recipient onto
the failed list and stops, and a batch of `n ≥ 2` recipients is split at
the midpoint into halves of sizes `⌊n/2⌋` and `n - ⌊n/2⌋` that are processed
recursively at `depth + 1`, left before right. -/
theorem processBatch_attempt_policy (env : VerificationEnv) (oracle : SendOracle)
    (batch : List Recipient) (depth : Nat) (st : ProgressState) (k : Nat)
    (hne : batch ≠ []) :
    (oracle k batch false = true →
      processBatchRecursive env oracle batch depth ⟨st, k⟩ =
        (⟨markBatchCompleted st batch, k + 1⟩,
         [⟨k, batch, false, true, some (envConsensus env)⟩])) ∧
    (oracle k batch false = false → oracle (k + 1) batch true = true →
      processBatchRecursive env oracle batch depth ⟨st, k⟩ =
        (⟨markBatchCompleted st batch, k + 2⟩,
         [⟨k, batch, false, false, none⟩,
          ⟨k + 1, batch, true, true, some (envConsensus env)⟩])) ∧
    (oracle k batch false = false → oracle (k + 1) batch true = false →
      batch.length = 1 →
      processBatchRecursive env oracle batch depth ⟨st, k⟩ =
        (⟨{ st with failedRecipients := st.failedRecipients ++ batch }, k + 2⟩,
         [⟨k, batch, false, false, none⟩, ⟨k + 1, batch, true, false, none⟩])) ∧
    (oracle k batch false = false → oracle (k + 1) batch true = false →
      2 ≤ batch.length →
      (batch.take (batch.length / 2)).length = batch.length / 2 ∧
      (batch.drop (batch.length / 2)).length = batch.length - batch.length / 2 ∧
      processBatchRecursive env oracle batch depth ⟨st, k⟩ =
        ((processBatchRecursive env oracle (batch.drop (batch.length / 2)) (depth + 1)
            (processBatchRecursive env oracle (batch.take (batch.length / 2)) (depth + 1)
              ⟨st, k + 2⟩).1).1,
         [⟨k, batch, false, false, none⟩, ⟨k + 1, batch, true, false, none⟩] ++
           (processBatchRecursive env oracle (batch.take (batch.length / 2)) (depth + 1)
             ⟨st, k + 2⟩).2 ++
           (processBatchRecursive env oracle (batch.drop (batch.length / 2)) (depth + 1)
             (processBatchRecursive env oracle (batch.take (batch.length / 2)) (depth + 1)
               ⟨st, k + 2⟩).1).2)) := by
  have hpos : 1 ≤ batch.length := List.length_pos.mpr hne
  obtain ⟨m, hm⟩ : ∃ m, batch.length = m + 1 := ⟨batch.length - 1, by omega⟩
  refine ⟨?_, ?_, ?_, ?_⟩
  · intro h1
    rw [processBatchRecursive, hm, pbrF_first_ok env oracle m batch depth st k h1]
  · intro h1 h2
    rw [processBatchRecursive, hm, pbrF_retry_ok env oracle m batch depth st k h1 h2]
  · intro h1 h2 hlen
    rw [processBatchRecursive, hm, pbrF_fail_one env oracle m batch depth st k h1 h2 hlen]
  · intro h1 h2 hlen2
    refine ⟨by rw [List.length_take]; omega, by rw [List.length_drop], ?_⟩
    rw [processBatchRecursive, hm,
      pbrF_split env oracle m batch depth st k h1 h2 (by omega) (by omega)]
    have hL : processBatchRecursiveFuel env oracle m (batch.take (batch.length / 2))
        (depth + 1) ⟨st, k + 2⟩ =
        processBatchRecursiveFuel env oracle (batch.take (batch.length / 2)).length
          (batch.take (batch.length / 2)) (depth + 1) ⟨st, k + 2⟩ :=
      pbrF_fuel_irrel env oracle m (batch.take (batch.length / 2)).length
        (batch.take (batch.length / 2)) (depth + 1) ⟨st, k + 2⟩
        (by rw [List.length_take]; omega) (by rw [List.length_take]; omega) le_rfl
    rw [hL]
    have hR : processBatchRecursiveFuel env oracle m (batch.drop (batch.length / 2))
        (depth + 1)
        (processBatchRecursiveFuel env oracle (batch.take (batch.length / 2)).length
          (batch.take (batch.length / 2)) (depth + 1) ⟨st, k + 2⟩).1 =
        processBatchRecursiveFuel env oracle (batch.drop (batch.length / 2)).length
          (batch.drop (batch.length / 2)) (depth + 1)
          (processBatchRecursiveFuel env oracle (batch.take (batch.length / 2)).length
            (batch.take (batch.length / 2)) (depth + 1) ⟨st, k + 2⟩).1 :=
      pbrF_fuel_irrel env oracle m (batch.drop (batch.length / 2)).length
        (batch.drop (batch.length / 2)) (depth + 1) _
        (by rw [List.length_drop]; omega) (by rw [List.length_drop]; omega) le_rfl
    rw [hR, ← hm]
    rfl

/-- Claim C5, witness: a singleton batch whose two attempts both fail marks
its recipient failed with exactly the two logged attempts. -/
theorem processBatch_attempt_policy_witness :
    processBatchRecursive emptyEnv alwaysFail [⟨"A", 1⟩] 0 ⟨initialProgress [⟨"A", 1⟩], 0⟩ =
      (⟨{ initialProgress [⟨"A", 1⟩] with
            failedRecipients := (initialProgress [⟨"A", 1⟩]).failedRecipients ++ [⟨"A", 1⟩] },
          2⟩,
       [⟨0, [⟨"A", 1⟩], false, false, none⟩, ⟨1, [⟨"A", 1⟩], true, false, none⟩]) :=
  (processBatch_attempt_policy emptyEnv alwaysFail [⟨"A", 1⟩] 0 (initialProgress [⟨"A", 1⟩]) 0
    (by decide)).2.2.1 rfl rfl rfl

/-- Claim C6, counterexample: with the sender's associated token account
missing and a malformed recipient line, `sendTransactions` broadcasts the
ATA-creation transaction (inside `ensureSenderAtaExists`, line 440) before
the recipient list is parsed (line 443), so a submission is broadcast before
the validation error is raised — refuting "no submission of any kind". -/
theorem ata_broadcast_precedes_validation :
    (sendTransactionsFull emptyEnv alwaysOk true (fun _ => true) 6 [['x']] 1).1 =
      [.ataCreateBroadcast, .validationFailed (.badLineFormat 1)] := by
  decide

/-- Claim C6, amended: the validation error is raised before any batch
transfer submission begins — when validation fails the event trace is just
the possible ATA-creation broadcast followed by the validation failure,
with no batch attempt at all; only the sender-ATA creation transaction can
be broadcast before the list is validated. -/
theorem no_batch_attempt_on_validation_failure (env : VerificationEnv) (oracle : SendOracle)
    (ataMissing : Bool) (isAddr : List Char → Bool) (decimals : Nat)
    (lines : List (List Char)) (bs : Nat) (e : ValidationError)
    (h : parseRecipients isAddr decimals lines = .error e) :
    (sendTransactionsFull env oracle ataMissing isAddr decimals lines bs).1 =
      (if ataMissing then [SendEvent.ataCreateBroadcast] else []) ++
        [SendEvent.validationFailed e] := by
  simp [sendTransactionsFull, h]

/-- Claim C6, witness: a malformed line with no ATA broadcast yields exactly
the validation-failure event. -/
theorem no_batch_attempt_on_validation_failure_witness :
    (sendTransactionsFull emptyEnv alwaysOk false (fun _ => true) 6 [['x']] 1).1 =
      (if false then [SendEvent.ataCreateBroadcast] else []) ++
        [SendEvent.validationFailed (.badLineFormat 1)] :=
  no_batch_attempt_on_validation_failure emptyEnv alwaysOk false (fun _ => true) 6 [['x']] 1
    (.badLineFormat 1) rfl

/-- Claim C9: consensus verification never mutates the completed/failed
ledger and never triggers a retry: `trySendBatch` returns the ledger exactly
as it received it and reports the submission outcome regardless of the
consensus verdict, and an entire send produces an identical final run state
and identical attempt pattern (indices, batches, simulation flags,
outcomes) under any two verification environments — any endpoint lists, any
per-endpoint verdicts (including a quorum that is not reached, or
re-verifying an already-finalized signature), any thresholds. -/
theorem consensus_never_mutates_ledger :
    (∀ (env : VerificationEnv) (oracle : SendOracle) (k : Nat) (batch : List Recipient)
        (sim : Bool) (st : ProgressState),
      (trySendBatch env oracle k batch sim st).progressAfter = st ∧
      (trySendBatch env oracle k batch sim st).ok = oracle k batch sim) ∧
    (∀ (env₁ env₂ : VerificationEnv) (oracle : SendOracle) (rs : List Recipient) (bs : Nat),
      (sendCore env₁ oracle rs bs).1 = (sendCore env₂ oracle rs bs).1 ∧
      (sendCore env₁ oracle rs bs).2.map eraseConsensus =
        (sendCore env₂ oracle rs bs).2.map eraseConsensus) := by
  constructor
  · intro env oracle k batch sim st
    exact ⟨trySendBatch_progressAfter env oracle k batch sim st,
      trySendBatch_ok env oracle k batch sim st⟩
  · intro env₁ env₂ oracle rs bs
    exact runBatches_env_irrel env₁ env₂ oracle (makeBatches rs bs) ⟨initialProgress rs, 0⟩

end SolanaMultisender
